import Mathlib

set_option linter.unusedVariables false

/-!
Shallow embedding of `src/data_processing/create_portfolio.py`
(politician-copy-trading).

Conventions used throughout:
* Calendar dates are modelled as natural numbers (the provider's trading
  calendar is an ascending list of such dates).
* Dollar amounts, close prices and share quantities are rationals.
* A pandas `NaN` arising from a failed left join (a transaction date with no
  matching price row) is modelled as `Option.none`; pandas `groupby(...).sum()`
  skips `NaN` values, which is modelled by summing `Option.getD 0`.
* Rational division by zero is Lean's total division (`q / 0 = 0`).  Where the
  Python code can divide by zero the theorems carry hypotheses keeping the
  modelled arithmetic in agreement with the float semantics of the source.
* The external price provider (`yfinance`) is modelled by its response data:
  a wide close table `close : String → ℕ → Option ℚ` over a date axis
  `dates : List ℕ`, and a benchmark series `spy : List (ℕ × ℚ)` of
  (trading day, close) pairs.  The provider is deterministic within a run, so
  the several SPY downloads performed by the script all return `spy`.
-/

/-- Which column keys the holdings accumulation: the `groupby_column`
argument of `holdings` (`"TransactionDate"` or `"ReportDate"`). -/
inductive DateKey
  | execution
  | disclosure
deriving DecidableEq, Repr

/-- A cleaned transaction row: ticker, signed dollar amount (negative for
non-purchases), execution date (`TransactionDate`), disclosure date
(`ReportDate`). -/
structure Trade where
  ticker : String
  amount : ℚ
  transactionDate : ℕ
  reportDate : ℕ
deriving DecidableEq, Repr

/-- A transaction after `add_stock_amount_column`: the extra `stockAmount`
column is `none` when the left join found no price for
(TransactionDate, Ticker) — pandas' `NaN`. -/
structure ValuedTrade where
  ticker : String
  amount : ℚ
  transactionDate : ℕ
  reportDate : ℕ
  stockAmount : Option ℚ
deriving DecidableEq, Repr

/-- One long-format row of the price table built by `download_stock_data`:
(Date, Ticker, Close, DailyROI). -/
structure PriceRow where
  date : ℕ
  ticker : String
  close : ℚ
  dailyROI : ℚ
deriving DecidableEq, Repr

/-- Continuation of a ticker's return-factor computation: given the previous
close, each row's `DailyROI` is `close / prev` (pandas `pct_change() + 1`). -/
def roiRows (t : String) (prev : ℚ) : List (ℕ × ℚ) → List PriceRow
  | [] => []
  | (d, c) :: rest => ⟨d, t, c, c / prev⟩ :: roiRows t c rest

/-- A single ticker's date-ordered price rows with return factors: the first
observed row gets factor 1 (pandas `pct_change().fillna(0) + 1.0`). -/
def tickerSeries (t : String) : List (ℕ × ℚ) → List PriceRow
  | [] => []
  | (d, c) :: rest => ⟨d, t, c, 1⟩ :: roiRows t c rest

/-- The (date, close) pairs available for ticker `t`, in ascending date
order, with unavailable closes dropped (`dropna(subset=['Close'])`). -/
def tickerRows (t : String) (dates : List ℕ) (close : String → ℕ → Option ℚ) :
    List (ℕ × ℚ) :=
  (List.insertionSort (· ≤ ·) dates.dedup).filterMap
    (fun d => (close t d).map (fun c => (d, c)))

/-- `download_stock_data`: melt the wide close table into long format, drop
rows with unavailable close, sort by (Ticker, Date), and compute each
ticker's daily return factor independently via `groupby('Ticker')`. -/
def download_stock_data (dates : List ℕ) (tickers : List String)
    (close : String → ℕ → Option ℚ) : List PriceRow :=
  (List.insertionSort (· ≤ ·) tickers.dedup).flatMap
    (fun t => tickerSeries t (tickerRows t dates close))

/-- First close price recorded for (date `d`, ticker `t`); the price table
has at most one row per (date, ticker), so this is the join partner of the
`merge(how='left')` in `add_stock_amount_column`. -/
def lookupClose (sd : List PriceRow) (d : ℕ) (t : String) : Option ℚ :=
  (sd.find? (fun r => decide (r.date = d ∧ r.ticker = t))).map (·.close)

/-- `add_stock_amount_column`: left-join each trade to the close price at its
(TransactionDate, Ticker) and derive `StockAmount = Amount / Close`; a trade
with no matching price keeps a `none` (NaN) stock amount. -/
def add_stock_amount_column (trades : List Trade) (sd : List PriceRow) :
    List ValuedTrade :=
  trades.map (fun tr =>
    ⟨tr.ticker, tr.amount, tr.transactionDate, tr.reportDate,
      (lookupClose sd tr.transactionDate tr.ticker).map (fun c => tr.amount / c)⟩)

/-- The date column used to group trades in `holdings`. -/
def keyDate : DateKey → ValuedTrade → ℕ
  | .execution, tr => tr.transactionDate
  | .disclosure, tr => tr.reportDate

/-- The `cumulative_holdings` dict: an association list from ticker to running
share quantity, in insertion order, with unique keys. -/
abbrev HState := List (String × ℚ)

/-- Dict lookup. -/
def lookupQty (s : HState) (t : String) : Option ℚ :=
  (s.find? (fun p => decide (p.1 = t))).map (·.2)

/-- Dict store `s[t] = q`: update in place if present, else append. -/
def setQty (s : HState) (t : String) (q : ℚ) : HState :=
  if s.any (fun p => decide (p.1 = t)) then
    s.map (fun p => if p.1 = t then (t, q) else p)
  else s ++ [(t, q)]

/-- Dict delete `del s[t]`. -/
def eraseQty (s : HState) (t : String) : HState :=
  s.filter (fun p => decide (p.1 ≠ t))

/-- A day's net share quantity for ticker `t`:
`day_transactions.groupby('Ticker')['StockAmount'].sum()` — pandas skips NaN
stock amounts, hence the `Option.getD 0`. -/
def daySum (dayTrades : List ValuedTrade) (t : String) : ℚ :=
  ((dayTrades.filter (fun tr => decide (tr.ticker = t))).map
    (fun tr => tr.stockAmount.getD 0)).sum

/-- One iteration of the inner loop of `holdings`:
`cumulative_holdings[ticker] += stock_amount` followed by
`if cumulative_holdings[ticker] <= 0: del cumulative_holdings[ticker]`. -/
def applyTicker (dayTrades : List ValuedTrade) (s : HState) (t : String) :
    HState :=
  let q := (lookupQty s t).getD 0 + daySum dayTrades t
  if q ≤ 0 then eraseQty s t else setQty s t q

/-- The distinct tickers traded on a day, in ascending order (pandas
`groupby('Ticker')` sorts its keys). -/
def dayTickers (dayTrades : List ValuedTrade) : List String :=
  List.insertionSort (· ≤ ·) (dayTrades.map (·.ticker)).dedup

/-- Process one calendar date of `holdings`: apply every ticker's net day
quantity to the running state (a date with no trades leaves it unchanged). -/
def applyDay (g : DateKey) (trades : List ValuedTrade) (s : HState) (d : ℕ) :
    HState :=
  let dayTrades := trades.filter (fun tr => decide (keyDate g tr = d))
  (dayTickers dayTrades).foldl (applyTicker dayTrades) s

/-- One row of the holdings ledger (a PositionSnapshot). -/
structure LedgerRow where
  date : ℕ
  ticker : String
  stockAmount : ℚ
deriving DecidableEq, Repr

/-- The date loop of `holdings`: walk the calendar, update the state, and
append one ledger row per ticker currently held. -/
def holdingsAux (g : DateKey) (trades : List ValuedTrade) (s : HState) :
    List ℕ → List LedgerRow
  | [] => []
  | d :: ds =>
    let s2 := applyDay g trades s d
    s2.map (fun p => ⟨d, p.1, p.2⟩) ++ holdingsAux g trades s2 ds

/-- `holdings`: reconstruct the daily position ledger over the benchmark
trading calendar, keyed on the chosen date column. -/
def holdings (trades : List ValuedTrade) (g : DateKey) (calendar : List ℕ) :
    List LedgerRow :=
  holdingsAux g trades [] calendar

/-- One row of the valuation table built by `calculate_portfolio_roi`. -/
structure PortRow where
  date : ℕ
  ticker : String
  stockAmount : ℚ
  close : ℚ
  dailyROI : ℚ
  stockValue : ℚ
  totalValue : ℚ
  roi : ℚ
deriving DecidableEq, Repr

/-- The inner join (pandas `merge`, default `how='inner'`) of the holdings
ledger with the price table on (Date, Ticker): a ledger row pairs with every
matching price row, and a ledger row with no match is dropped. -/
def innerMergePrices (ledger : List LedgerRow) (sd : List PriceRow) :
    List (LedgerRow × PriceRow) :=
  ledger.flatMap (fun lr =>
    (sd.filter (fun pr => decide (pr.date = lr.date ∧ pr.ticker = lr.ticker))).map
      (fun pr => (lr, pr)))

/-- `StockValue` of a joined row: `StockAmount * Close`. -/
def mergedValue (x : LedgerRow × PriceRow) : ℚ := x.1.stockAmount * x.2.close

/-- `TotalValue` for a date: `groupby('Date')['StockValue'].transform('sum')`. -/
def dateTotal (m : List (LedgerRow × PriceRow)) (d : ℕ) : ℚ :=
  ((m.filter (fun x => decide (x.1.date = d))).map mergedValue).sum

/-- `calculate_portfolio_roi`: join holdings to prices, attach `StockValue`,
the per-date `TotalValue`, and the value-weighted return contribution
`ROI = StockValue / TotalValue * DailyROI`.  (When `TotalValue = 0` pandas
produces NaN contributions from `0/0` which its date sums later skip; the
total rational division `v / 0 = 0` reproduces those date sums, see the
degenerate-value theorems.) -/
def calculate_portfolio_roi (trades : List ValuedTrade) (sd : List PriceRow)
    (g : DateKey) (calendar : List ℕ) : List PortRow :=
  let m := innerMergePrices (holdings trades g calendar) sd
  m.map (fun x =>
    ⟨x.1.date, x.1.ticker, x.1.stockAmount, x.2.close, x.2.dailyROI,
      mergedValue x, dateTotal m x.1.date,
      mergedValue x / dateTotal m x.1.date * x.2.dailyROI⟩)

/-- `groupby('Date')[column].sum().reset_index()`: one (date, sum) pair per
distinct date of the table, dates in ascending order. -/
def groupDateSum (f : PortRow → ℚ) (rows : List PortRow) : List (ℕ × ℚ) :=
  (List.insertionSort (· ≤ ·) (rows.map (·.date)).dedup).map
    (fun d => (d, ((rows.filter (fun r => decide (r.date = d))).map f).sum))

/-- Continuation of the benchmark's daily return factors (`pct_change + 1`). -/
def spyDailyAux (prev : ℚ) : List (ℕ × ℚ) → List ℚ
  | [] => []
  | (_, c) :: rest => (c / prev) :: spyDailyAux c rest

/-- The benchmark's daily return factors: first day 1 (`fillna(0) + 1.0`). -/
def spyDaily : List (ℕ × ℚ) → List ℚ
  | [] => []
  | (_, c) :: rest => 1 :: spyDailyAux c rest

/-- Running product with accumulator (pandas `cumprod`). -/
def cumprodAux (acc : ℚ) : List ℚ → List ℚ
  | [] => []
  | x :: xs => (acc * x) :: cumprodAux (acc * x) xs

/-- pandas `cumprod`: `out[0] = x0`, `out[t] = out[t-1] * x[t]`. -/
def cumprod (l : List ℚ) : List ℚ := cumprodAux 1 l

/-- Left merge (pandas `merge(..., how='left')`) of a table against a
(date, value) table: each left row pairs with every matching right row, and
keeps a `none` value when there is no match. -/
def mergeLeft {α : Type} (xs : List α) (key : α → ℕ) (ys : List (ℕ × ℚ)) :
    List (α × Option ℚ) :=
  xs.flatMap (fun x =>
    if (ys.filter (fun y => decide (y.1 = key x))).isEmpty then [(x, none)]
    else (ys.filter (fun y => decide (y.1 = key x))).map (fun y => (x, some y.2)))

/-- One row of the final comparison table. -/
structure FinalRow where
  date : ℕ
  spyCumROI : ℚ
  roi : ℚ
  cumulativeROI : ℚ
  copyROI : ℚ
  copyCumulativeROI : ℚ
deriving DecidableEq, Repr

/-- Fill the merged daily returns with 1.0 (`fillna(1.0)`) and chain both
cumulative products, mirroring lines 210-214 of the script. -/
def finalRows : ℚ → ℚ → List ((ℕ × ℚ) × Option ℚ × Option ℚ) → List FinalRow
  | _, _, [] => []
  | accP, accC, ((d, s), p, c) :: rest =>
    ⟨d, s, p.getD 1, accP * p.getD 1, c.getD 1, accC * c.getD 1⟩ ::
      finalRows (accP * p.getD 1) (accC * c.getD 1) rest

/-- The politician portfolio's aggregated daily-return series:
`politician_holdings.groupby('Date')['ROI'].sum()`. -/
def polDailySeries (trades : List ValuedTrade) (sd : List PriceRow)
    (cal : List ℕ) : List (ℕ × ℚ) :=
  groupDateSum (·.roi) (calculate_portfolio_roi trades sd .execution cal)

/-- The copy-trade portfolio's aggregated daily-return series. -/
def cpyDailySeries (trades : List ValuedTrade) (sd : List PriceRow)
    (cal : List ℕ) : List (ℕ × ℚ) :=
  groupDateSum (·.roi) (calculate_portfolio_roi trades sd .disclosure cal)

/-- `final = spy_data[["Date", "SPYCumROI"]]`: the benchmark date axis with
the benchmark's own chained cumulative return. -/
def spyTable (spy : List (ℕ × ℚ)) : List (ℕ × ℚ) :=
  (spy.map (·.1)).zip (cumprod (spyDaily spy))

/-- `create_portfolio_roi`: run the aggregator for both date keys over the
benchmark calendar, left-merge both date-summed series onto the benchmark
date axis, default missing days to 1.0 and chain cumulative products. -/
def create_portfolio_roi (trades : List ValuedTrade) (sd : List PriceRow)
    (spy : List (ℕ × ℚ)) : List FinalRow :=
  let cal := spy.map (·.1)
  let m1 := mergeLeft (spyTable spy) (·.1) (polDailySeries trades sd cal)
  let m2 := mergeLeft m1 (fun x => x.1.1) (cpyDailySeries trades sd cal)
  finalRows 1 1 (m2.map (fun x => (x.1.1, x.1.2, x.2)))

/-- A request to the external price provider (`yf.download`): either the
single combined multi-ticker download or a benchmark (SPY) download. -/
inductive Request
  | combined (tickers : List String)
  | benchmark
deriving DecidableEq, Repr

/-- The ticker list of the combined download:
`politician_trades["Ticker"].unique().tolist()` plus `"SPY"`. -/
def requestTickers (trades : List Trade) : List String :=
  (trades.map (·.ticker)).dedup ++ ["SPY"]

/-- `download_stock_data` with its provider requests: lines 75-76 perform
exactly one combined download. -/
def download_stock_data_traced (trades : List Trade) (dates : List ℕ)
    (close : String → ℕ → Option ℚ) : List Request × List PriceRow :=
  ([Request.combined (requestTickers trades)],
    download_stock_data dates (requestTickers trades) close)

/-- `holdings` with its provider requests: line 123 downloads the SPY series
to obtain the trading calendar on every call. -/
def holdings_traced (trades : List ValuedTrade) (g : DateKey)
    (spy : List (ℕ × ℚ)) : List Request × List LedgerRow :=
  ([Request.benchmark], holdings trades g (spy.map (·.1)))

/-- `calculate_portfolio_roi` with its provider requests (those of the
`holdings` call it makes). -/
def calculate_portfolio_roi_traced (trades : List ValuedTrade)
    (sd : List PriceRow) (g : DateKey) (spy : List (ℕ × ℚ)) :
    List Request × List PortRow :=
  ((holdings_traced trades g spy).1,
    calculate_portfolio_roi trades sd g (spy.map (·.1)))

/-- `create_portfolio_roi` with its provider requests: two aggregator runs
(each downloading SPY inside `holdings`) plus the SPY download of line 193. -/
def create_portfolio_roi_traced (trades : List ValuedTrade)
    (sd : List PriceRow) (spy : List (ℕ × ℚ)) : List Request × List FinalRow :=
  ((calculate_portfolio_roi_traced trades sd .execution spy).1 ++
      (calculate_portfolio_roi_traced trades sd .disclosure spy).1 ++
      [Request.benchmark],
    create_portfolio_roi trades sd spy)

/-- `calculate_returns` with its provider requests (CSV loading, cleaning and
politician selection perform no price-provider requests). -/
def calculate_returns_traced (trades : List Trade) (dates : List ℕ)
    (close : String → ℕ → Option ℚ) (spy : List (ℕ × ℚ)) :
    List Request × List FinalRow :=
  let dl := download_stock_data_traced trades dates close
  let valued := add_stock_amount_column trades dl.2
  (dl.1 ++ (create_portfolio_roi_traced valued dl.2 spy).1,
    (create_portfolio_roi_traced valued dl.2 spy).2)

/-! ## State invariants of the holdings reconstructor -/

/-- Invariant of the `cumulative_holdings` dict: keys are unique and every
stored quantity is strictly positive. -/
def GoodState (s : HState) : Prop :=
  (s.map Prod.fst).Nodup ∧ ∀ p ∈ s, 0 < p.2

theorem goodState_nil : GoodState [] := by
  constructor
  · simp
  · intro p hp
    simp at hp

theorem goodState_eraseQty {s : HState} (h : GoodState s) (t : String) :
    GoodState (eraseQty s t) := by
  obtain ⟨h1, h2⟩ := h
  refine ⟨?_, ?_⟩
  · exact (List.Sublist.map Prod.fst (List.filter_sublist s)).nodup h1
  · intro p hp
    exact h2 p (List.mem_of_mem_filter hp)

theorem map_fst_setQty_of_mem {s : HState} {t : String} {q : ℚ}
    (hmem : s.any (fun p => decide (p.1 = t)) = true) :
    (setQty s t q).map Prod.fst = s.map Prod.fst := by
  rw [setQty, if_pos hmem, List.map_map]
  apply List.map_congr_left
  intro p _
  by_cases hpt : p.1 = t
  · simp [hpt]
  · simp [hpt]

theorem goodState_setQty {s : HState} {t : String} {q : ℚ}
    (h : GoodState s) (hq : 0 < q) : GoodState (setQty s t q) := by
  obtain ⟨h1, h2⟩ := h
  by_cases hmem : s.any (fun p => decide (p.1 = t)) = true
  · refine ⟨?_, ?_⟩
    · rw [map_fst_setQty_of_mem hmem]
      exact h1
    · intro p hp
      rw [setQty, if_pos hmem] at hp
      obtain ⟨p0, hp0, hpe⟩ := List.mem_map.mp hp
      by_cases hpt : p0.1 = t
      · rw [if_pos hpt] at hpe
        rw [← hpe]
        exact hq
      · rw [if_neg hpt] at hpe
        rw [← hpe]
        exact h2 p0 hp0
  · have hnot : t ∉ s.map Prod.fst := by
      intro hcon
      obtain ⟨p0, hp0, hpe⟩ := List.mem_map.mp hcon
      exact hmem (List.any_eq_true.mpr ⟨p0, hp0, by simp [hpe]⟩)
    refine ⟨?_, ?_⟩
    · rw [setQty, if_neg hmem, List.map_append]
      simp only [List.map_cons, List.map_nil]
      exact List.Nodup.append h1 (List.nodup_singleton t)
        (by
          intro a ha hb
          simp only [List.mem_singleton] at hb
          exact hnot (hb ▸ ha))
    · intro p hp
      rw [setQty, if_neg hmem] at hp
      rcases List.mem_append.mp hp with hp1 | hp2
      · exact h2 p hp1
      · simp only [List.mem_singleton] at hp2
        rw [hp2]
        exact hq

theorem goodState_applyTicker {s : HState} (dt : List ValuedTrade)
    (h : GoodState s) (t : String) : GoodState (applyTicker dt s t) := by
  rw [applyTicker]
  by_cases hq : (lookupQty s t).getD 0 + daySum dt t ≤ 0
  · rw [if_pos hq]
    exact goodState_eraseQty h t
  · rw [if_neg hq]
    exact goodState_setQty h (lt_of_not_le hq)

theorem goodState_foldl (dt : List ValuedTrade) :
    ∀ (l : List String) (s : HState), GoodState s →
      GoodState (l.foldl (applyTicker dt) s)
  | [], _, h => h
  | t :: l, s, h =>
    goodState_foldl dt l (applyTicker dt s t) (goodState_applyTicker dt h t)

theorem goodState_applyDay (g : DateKey) (trades : List ValuedTrade)
    {s : HState} (h : GoodState s) (d : ℕ) : GoodState (applyDay g trades s d) :=
  goodState_foldl _ _ _ h

theorem holdingsAux_pos (g : DateKey) (trades : List ValuedTrade) :
    ∀ (cal : List ℕ) (s : HState), GoodState s →
      ∀ r ∈ holdingsAux g trades s cal, 0 < r.stockAmount
  | [], _, _, r, hr => by simp [holdingsAux] at hr
  | d :: ds, s, hs, r, hr => by
    rw [holdingsAux] at hr
    rcases List.mem_append.mp hr with h1 | h2
    · obtain ⟨p, hp, hpe⟩ := List.mem_map.mp h1
      rw [← hpe]
      exact (goodState_applyDay g trades hs d).2 p hp
    · exact holdingsAux_pos g trades ds (applyDay g trades s d)
        (goodState_applyDay g trades hs d) r h2

/-- C1 — Non-negativity invariant of the holdings ledger: every row emitted
by `holdings` (for either date key) carries a strictly positive cumulative
share quantity; no zero or negative position ever appears. -/
theorem holdings_row_quantity_pos (trades : List ValuedTrade) (g : DateKey)
    (calendar : List ℕ) (r : LedgerRow) (hr : r ∈ holdings trades g calendar) :
    0 < r.stockAmount :=
  holdingsAux_pos g trades calendar [] goodState_nil r hr

theorem holdings_row_quantity_pos_witness :
    ((⟨1, "X", 10⟩ : LedgerRow) ∈
        holdings [⟨"X", 10, 1, 1, some 10⟩] DateKey.execution [1, 2]) ∧
      0 < (⟨1, "X", 10⟩ : LedgerRow).stockAmount := by
  have hmem : (⟨1, "X", 10⟩ : LedgerRow) ∈
      holdings [⟨"X", 10, 1, 1, some 10⟩] DateKey.execution [1, 2] := by
    simp +decide [holdings, holdingsAux, applyDay, dayTickers, applyTicker,
      daySum, lookupQty, setQty, eraseQty, keyDate, List.insertionSort,
      List.orderedInsert]
  exact ⟨hmem,
    holdings_row_quantity_pos [⟨"X", 10, 1, 1, some 10⟩] DateKey.execution
      [1, 2] ⟨1, "X", 10⟩ hmem⟩

/-! ## The ROI aggregator: weights and the inner join -/

theorem mem_innerMergePrices {ledger : List LedgerRow} {sd : List PriceRow}
    {x : LedgerRow × PriceRow} (hx : x ∈ innerMergePrices ledger sd) :
    x.1 ∈ ledger ∧ x.2 ∈ sd ∧ x.2.date = x.1.date ∧ x.2.ticker = x.1.ticker := by
  rw [innerMergePrices] at hx
  obtain ⟨lr, hlr, hx2⟩ := List.mem_flatMap.mp hx
  obtain ⟨pr, hpr, hxe⟩ := List.mem_map.mp hx2
  obtain ⟨hpr1, hpr2⟩ := List.mem_filter.mp hpr
  rw [decide_eq_true_eq] at hpr2
  rw [← hxe]
  exact ⟨hlr, hpr1, hpr2.1, hpr2.2⟩

theorem calculate_portfolio_roi_eq_map (trades : List ValuedTrade)
    (sd : List PriceRow) (g : DateKey) (cal : List ℕ) :
    calculate_portfolio_roi trades sd g cal =
      (innerMergePrices (holdings trades g cal) sd).map
        (fun x =>
          ⟨x.1.date, x.1.ticker, x.1.stockAmount, x.2.close, x.2.dailyROI,
            mergedValue x,
            dateTotal (innerMergePrices (holdings trades g cal) sd) x.1.date,
            mergedValue x /
                dateTotal (innerMergePrices (holdings trades g cal) sd) x.1.date *
              x.2.dailyROI⟩) := rfl

theorem calculate_portfolio_roi_filter_date (trades : List ValuedTrade)
    (sd : List PriceRow) (g : DateKey) (cal : List ℕ) (d : ℕ) :
    (calculate_portfolio_roi trades sd g cal).filter
        (fun r => decide (r.date = d)) =
      ((innerMergePrices (holdings trades g cal) sd).filter
        (fun x => decide (x.1.date = d))).map
        (fun x =>
          ⟨x.1.date, x.1.ticker, x.1.stockAmount, x.2.close, x.2.dailyROI,
            mergedValue x,
            dateTotal (innerMergePrices (holdings trades g cal) sd) x.1.date,
            mergedValue x /
                dateTotal (innerMergePrices (holdings trades g cal) sd) x.1.date *
              x.2.dailyROI⟩) := by
  rw [calculate_portfolio_roi_eq_map, List.filter_map]
  rfl

theorem filter_date_map_stockValue (trades : List ValuedTrade)
    (sd : List PriceRow) (g : DateKey) (cal : List ℕ) (d : ℕ) :
    (((calculate_portfolio_roi trades sd g cal).filter
        (fun r => decide (r.date = d))).map (fun r => r.stockValue)).sum =
      dateTotal (innerMergePrices (holdings trades g cal) sd) d := by
  rw [calculate_portfolio_roi_filter_date, List.map_map, dateTotal]
  rfl

theorem sum_div_dateTotal (m : List (LedgerRow × PriceRow)) (d : ℕ)
    (hpos : 0 < dateTotal m d) :
    ((m.filter (fun x => decide (x.1.date = d))).map
      (fun x => mergedValue x / dateTotal m d)).sum = 1 := by
  simp only [div_eq_mul_inv]
  rw [List.sum_map_mul_right]
  have htot : ((m.filter (fun x => decide (x.1.date = d))).map mergedValue).sum =
      dateTotal m d := rfl
  rw [htot]
  exact mul_inv_cancel₀ (ne_of_gt hpos)

/-- C4 — Weight normalization: on every date whose total portfolio value is
strictly positive, the per-ticker value weights `StockValue / TotalValue` of
the valuation table sum to exactly 1. -/
theorem portfolio_weights_sum_one (trades : List ValuedTrade)
    (sd : List PriceRow) (g : DateKey) (cal : List ℕ) (d : ℕ)
    (hpos : 0 < dateTotal (innerMergePrices (holdings trades g cal) sd) d) :
    (((calculate_portfolio_roi trades sd g cal).filter
        (fun r => decide (r.date = d))).map
      (fun r => r.stockValue / r.totalValue)).sum = 1 := by
  rw [calculate_portfolio_roi_filter_date, List.map_map]
  refine Eq.trans (congrArg List.sum (List.map_congr_left ?_))
    (sum_div_dateTotal (innerMergePrices (holdings trades g cal) sd) d hpos)
  intro x hx
  have hxd : x.1.date = d := decide_eq_true_eq.mp (List.mem_filter.mp hx).2
  show mergedValue x /
      dateTotal (innerMergePrices (holdings trades g cal) sd) x.1.date =
    mergedValue x / dateTotal (innerMergePrices (holdings trades g cal) sd) d
  rw [hxd]

theorem portfolio_weights_sum_one_witness :
    0 < dateTotal
        (innerMergePrices
          (holdings [⟨"X", 10, 1, 1, some 10⟩] DateKey.execution [1])
          [⟨1, "X", 1, 1⟩]) 1 ∧
      (((calculate_portfolio_roi [⟨"X", 10, 1, 1, some 10⟩] [⟨1, "X", 1, 1⟩]
            DateKey.execution [1]).filter (fun r => decide (r.date = 1))).map
        (fun r => r.stockValue / r.totalValue)).sum = 1 := by
  have hpos : 0 < dateTotal
      (innerMergePrices
        (holdings [⟨"X", 10, 1, 1, some 10⟩] DateKey.execution [1])
        [⟨1, "X", 1, 1⟩]) 1 := by
    simp +decide [dateTotal, mergedValue, innerMergePrices, holdings,
      holdingsAux, applyDay, dayTickers, applyTicker, daySum, lookupQty,
      setQty, eraseQty, keyDate, List.insertionSort, List.orderedInsert]
  exact ⟨hpos,
    portfolio_weights_sum_one [⟨"X", 10, 1, 1, some 10⟩] [⟨1, "X", 1, 1⟩]
      DateKey.execution [1] 1 hpos⟩

/-- C10 — The ROI aggregation joins holdings to prices with an inner join:
a held (day, ticker) with no price observation yields no valuation row at
all, and every row's `TotalValue` is the sum of `StockValue` over only the
rows that survived the join on that date, so the remaining tickers' weights
are renormalized over the priced tickers alone. -/
theorem portfolio_roi_inner_join (trades : List ValuedTrade)
    (sd : List PriceRow) (g : DateKey) (cal : List ℕ) :
    (∀ d t, (∀ pr ∈ sd, ¬(pr.date = d ∧ pr.ticker = t)) →
        ∀ r ∈ calculate_portfolio_roi trades sd g cal,
          ¬(r.date = d ∧ r.ticker = t)) ∧
      ∀ r ∈ calculate_portfolio_roi trades sd g cal,
        r.totalValue =
          (((calculate_portfolio_roi trades sd g cal).filter
              (fun x => decide (x.date = r.date))).map
            (fun x => x.stockValue)).sum := by
  constructor
  · intro d t hnp r hr hdt
    rw [calculate_portfolio_roi_eq_map] at hr
    obtain ⟨x, hx, hxe⟩ := List.mem_map.mp hr
    obtain ⟨-, hsd, hxd, hxt⟩ := mem_innerMergePrices hx
    have hrd : r.date = x.1.date := by rw [← hxe]
    have hrt : r.ticker = x.1.ticker := by rw [← hxe]
    exact hnp x.2 hsd ⟨by rw [hxd, ← hrd, hdt.1], by rw [hxt, ← hrt, hdt.2]⟩
  · intro r hr
    rw [filter_date_map_stockValue]
    rw [calculate_portfolio_roi_eq_map] at hr
    obtain ⟨x, hx, hxe⟩ := List.mem_map.mp hr
    have hrd : r.date = x.1.date := by rw [← hxe]
    have hrv : r.totalValue =
        dateTotal (innerMergePrices (holdings trades g cal) sd) x.1.date := by
      rw [← hxe]
    rw [hrv, hrd]

theorem portfolio_roi_inner_join_witness :
    ((⟨1, "X", 10, 1, 1, 10, 10, 1⟩ : PortRow) ∈
        calculate_portfolio_roi [⟨"X", 10, 1, 1, some 10⟩] [⟨1, "X", 1, 1⟩]
          DateKey.execution [1, 2]) ∧
      (⟨1, "X", 10, 1, 1, 10, 10, 1⟩ : PortRow).totalValue =
        (((calculate_portfolio_roi [⟨"X", 10, 1, 1, some 10⟩] [⟨1, "X", 1, 1⟩]
            DateKey.execution [1, 2]).filter
          (fun x => decide (x.date = (⟨1, "X", 10, 1, 1, 10, 10, 1⟩ : PortRow).date))).map
          (fun x => x.stockValue)).sum := by
  have hmem : (⟨1, "X", 10, 1, 1, 10, 10, 1⟩ : PortRow) ∈
      calculate_portfolio_roi [⟨"X", 10, 1, 1, some 10⟩] [⟨1, "X", 1, 1⟩]
        DateKey.execution [1, 2] := by
    simp +decide [calculate_portfolio_roi, innerMergePrices, dateTotal,
      mergedValue, holdings, holdingsAux, applyDay, dayTickers, applyTicker,
      daySum, lookupQty, setQty, eraseQty, keyDate, List.insertionSort,
      List.orderedInsert]
  exact ⟨hmem,
    (portfolio_roi_inner_join [⟨"X", 10, 1, 1, some 10⟩] [⟨1, "X", 1, 1⟩]
      DateKey.execution [1, 2]).2 _ hmem⟩

/-! ## External-call accounting -/

/-- C9 (counterexample) — The claim that one full reconstruction run performs
exactly two price-provider requests is false: on any input (shown here at a
concrete one) `calculate_returns` triggers four `yf.download` calls — the
combined one of `download_stock_data` plus one SPY download inside each of
the two `holdings` runs plus the SPY download of line 193. -/
theorem calculate_returns_two_requests_false :
    (calculate_returns_traced [⟨"X", 10, 1, 1⟩] [1]
          (fun _ _ => some 1) [(1, 1)]).1.length = 4 ∧
      ¬(calculate_returns_traced [⟨"X", 10, 1, 1⟩] [1]
          (fun _ _ => some 1) [(1, 1)]).1.length = 2 := by
  constructor
  · rfl
  · intro h
    simp [calculate_returns_traced, download_stock_data_traced,
      create_portfolio_roi_traced, calculate_portfolio_roi_traced,
      holdings_traced] at h

/-- C9 (amended) — One full reconstruction run performs exactly four
price-provider requests: a single combined multi-ticker request (all traded
tickers plus the benchmark), one benchmark request inside each of the two
holdings reconstructions, and one more for the benchmark's own series. -/
theorem calculate_returns_requests (trades : List Trade) (dates : List ℕ)
    (close : String → ℕ → Option ℚ) (spy : List (ℕ × ℚ)) :
    (calculate_returns_traced trades dates close spy).1 =
      [Request.combined (requestTickers trades), Request.benchmark,
        Request.benchmark, Request.benchmark] := rfl

/-! ## Price series construction -/

theorem roiRows_length (t : String) :
    ∀ (l : List (ℕ × ℚ)) (prev : ℚ), (roiRows t prev l).length = l.length
  | [], _ => rfl
  | (_, c) :: l, _ => by
    simp only [roiRows, List.length_cons, roiRows_length t l c]

theorem tickerSeries_length (t : String) (l : List (ℕ × ℚ)) :
    (tickerSeries t l).length = l.length := by
  cases l with
  | nil => rfl
  | cons p l =>
    obtain ⟨d, c⟩ := p
    simp only [tickerSeries, List.length_cons, roiRows_length t l c]

theorem mem_roiRows (t : String) :
    ∀ (l : List (ℕ × ℚ)) (prev : ℚ) (r : PriceRow), r ∈ roiRows t prev l →
      (r.date, r.close) ∈ l ∧ r.ticker = t
  | [], _, r, hr => by simp [roiRows] at hr
  | (d, c) :: l, prev, r, hr => by
    rw [roiRows, List.mem_cons] at hr
    rcases hr with h1 | h2
    · rw [h1]
      exact ⟨List.mem_cons_self _ _, rfl⟩
    · obtain ⟨hm, ht⟩ := mem_roiRows t l c r h2
      exact ⟨List.mem_cons_of_mem _ hm, ht⟩

theorem mem_tickerSeries (t : String) (l : List (ℕ × ℚ)) (r : PriceRow)
    (hr : r ∈ tickerSeries t l) : (r.date, r.close) ∈ l ∧ r.ticker = t := by
  cases l with
  | nil => simp [tickerSeries] at hr
  | cons p l =>
    obtain ⟨d, c⟩ := p
    rw [tickerSeries, List.mem_cons] at hr
    rcases hr with h1 | h2
    · rw [h1]
      exact ⟨List.mem_cons_self _ _, rfl⟩
    · obtain ⟨hm, ht⟩ := mem_roiRows t l c r h2
      exact ⟨List.mem_cons_of_mem _ hm, ht⟩

theorem mem_tickerRows (t : String) (dates : List ℕ)
    (close : String → ℕ → Option ℚ) (d : ℕ) (c : ℚ)
    (h : (d, c) ∈ tickerRows t dates close) : close t d = some c := by
  rw [tickerRows] at h
  obtain ⟨d0, -, hd0⟩ := List.mem_filterMap.mp h
  cases hc : close t d0 with
  | none => rw [hc] at hd0; simp at hd0
  | some c0 =>
    rw [hc] at hd0
    simp only [Option.map_some', Option.some.injEq, Prod.mk.injEq] at hd0
    obtain ⟨h1, h2⟩ := hd0
    rw [← h1, hc, h2]

theorem filter_flatMap_ticker {l : List String} (hl : l.Nodup)
    (f : String → List PriceRow)
    (hf : ∀ t0, ∀ r ∈ f t0, r.ticker = t0) (t : String) :
    (l.flatMap f).filter (fun r => decide (r.ticker = t)) =
      if t ∈ l then f t else [] := by
  induction l with
  | nil => simp
  | cons a l ih =>
    rw [List.flatMap_cons, List.filter_append]
    by_cases hat : a = t
    · rw [hat] at hl ⊢
      have h1 : (f t).filter (fun r => decide (r.ticker = t)) = f t :=
        List.filter_eq_self.mpr (fun r hr => by
          rw [decide_eq_true_eq]
          exact hf t r hr)
      have h2 : (l.flatMap f).filter (fun r => decide (r.ticker = t)) = [] := by
        rw [ih (List.Nodup.of_cons hl), if_neg (List.Nodup.not_mem hl)]
      rw [h1, h2, List.append_nil, if_pos (List.mem_cons_self _ _)]
    · have h1 : (f a).filter (fun r => decide (r.ticker = t)) = [] := by
        apply List.filter_eq_nil_iff.mpr
        intro r hr
        rw [decide_eq_true_eq, hf a r hr]
        exact hat
      have hiff : (t ∈ l) ↔ (t ∈ a :: l) := by
        rw [List.mem_cons]
        constructor
        · exact Or.inr
        · rintro (h | h)
          · exact absurd h.symm hat
          · exact h
      rw [h1, List.nil_append, ih (List.Nodup.of_cons hl)]
      exact if_congr hiff rfl rfl

theorem roiRows_consec (t : String) :
    ∀ (l : List (ℕ × ℚ)) (prev : ℚ) (i : ℕ)
      (h : i + 1 < (roiRows t prev l).length),
      ((roiRows t prev l).get ⟨i + 1, h⟩).dailyROI =
        ((roiRows t prev l).get ⟨i + 1, h⟩).close /
          ((roiRows t prev l).get ⟨i, Nat.lt_of_succ_lt h⟩).close
  | [], _, i, h => by simp [roiRows] at h
  | (d, c) :: l, prev, 0, h => by
    cases l with
    | nil => simp [roiRows] at h
    | cons p l2 =>
      obtain ⟨d2, c2⟩ := p
      rfl
  | (d, c) :: l, prev, i + 1, h => by
    have h2 : i + 1 < (roiRows t c l).length := by
      rw [roiRows, List.length_cons] at h
      exact Nat.lt_of_succ_lt_succ h
    exact roiRows_consec t l c i h2

theorem tickerSeries_consec (t : String) (l : List (ℕ × ℚ)) (i : ℕ)
    (h : i + 1 < (tickerSeries t l).length) :
    ((tickerSeries t l).get ⟨i + 1, h⟩).dailyROI =
      ((tickerSeries t l).get ⟨i + 1, h⟩).close /
        ((tickerSeries t l).get ⟨i, Nat.lt_of_succ_lt h⟩).close := by
  cases l with
  | nil => simp [tickerSeries] at h
  | cons p l =>
    obtain ⟨d, c⟩ := p
    cases i with
    | zero =>
      cases l with
      | nil => simp [tickerSeries, roiRows] at h
      | cons p2 l2 =>
        obtain ⟨d2, c2⟩ := p2
        rfl
    | succ i =>
      have h2 : i + 1 < (roiRows t c l).length := by
        rw [tickerSeries, List.length_cons] at h
        exact Nat.lt_of_succ_lt_succ h
      exact roiRows_consec t l c i h2

theorem tickerSeries_head (t : String) (l : List (ℕ × ℚ))
    (h : 0 < (tickerSeries t l).length) :
    ((tickerSeries t l).get ⟨0, h⟩).dailyROI = 1 := by
  cases l with
  | nil => simp [tickerSeries] at h
  | cons p l =>
    obtain ⟨d, c⟩ := p
    rfl

/-- C8 — Price series construction: every emitted row carries a close price
the provider actually reported (rows with unavailable close are excluded
entirely); the rows of each ticker are exactly that ticker's own date-ordered
series (no cross-ticker leakage); the first row per ticker has return factor
exactly 1; and every later row's factor is its close divided by the same
ticker's previous close. -/
theorem price_series_construction (dates : List ℕ) (tickers : List String)
    (close : String → ℕ → Option ℚ) :
    (∀ r ∈ download_stock_data dates tickers close,
        close r.ticker r.date = some r.close) ∧
      (∀ t, (download_stock_data dates tickers close).filter
            (fun r => decide (r.ticker = t)) =
          if t ∈ tickers then tickerSeries t (tickerRows t dates close)
          else []) ∧
      (∀ t (h0 : 0 < ((download_stock_data dates tickers close).filter
            (fun r => decide (r.ticker = t))).length),
        (((download_stock_data dates tickers close).filter
            (fun r => decide (r.ticker = t))).get ⟨0, h0⟩).dailyROI = 1) ∧
      ∀ t i (h : i + 1 < ((download_stock_data dates tickers close).filter
            (fun r => decide (r.ticker = t))).length),
        (((download_stock_data dates tickers close).filter
            (fun r => decide (r.ticker = t))).get ⟨i + 1, h⟩).dailyROI =
          (((download_stock_data dates tickers close).filter
              (fun r => decide (r.ticker = t))).get ⟨i + 1, h⟩).close /
            (((download_stock_data dates tickers close).filter
                (fun r => decide (r.ticker = t))).get
              ⟨i, Nat.lt_of_succ_lt h⟩).close := by
  have hmemrow : ∀ r ∈ download_stock_data dates tickers close,
      close r.ticker r.date = some r.close := by
    intro r hr
    rw [download_stock_data] at hr
    obtain ⟨t0, -, hr2⟩ := List.mem_flatMap.mp hr
    obtain ⟨hm, ht⟩ := mem_tickerSeries t0 _ r hr2
    rw [ht]
    exact mem_tickerRows t0 dates close r.date r.close hm
  have hfil : ∀ t, (download_stock_data dates tickers close).filter
        (fun r => decide (r.ticker = t)) =
      if t ∈ tickers then tickerSeries t (tickerRows t dates close)
      else [] := by
    intro t
    rw [download_stock_data]
    rw [filter_flatMap_ticker
      ((List.perm_insertionSort _ _).nodup_iff.mpr tickers.nodup_dedup)
      _ (fun t0 r hr => (mem_tickerSeries t0 _ r hr).2) t]
    have hiff : (t ∈ List.insertionSort (· ≤ ·) tickers.dedup) ↔
        (t ∈ tickers) := by
      rw [(List.perm_insertionSort _ _).mem_iff, List.mem_dedup]
    exact if_congr hiff rfl rfl
  refine ⟨hmemrow, hfil, ?_, ?_⟩
  · intro t h0
    by_cases ht : t ∈ tickers
    · have he := hfil t
      rw [if_pos ht] at he
      revert h0
      rw [he]
      intro h0
      exact tickerSeries_head t _ h0
    · exfalso
      have he := hfil t
      rw [if_neg ht] at he
      rw [he] at h0
      simp at h0
  · intro t i h
    by_cases ht : t ∈ tickers
    · have he := hfil t
      rw [if_pos ht] at he
      revert h
      rw [he]
      intro h
      exact tickerSeries_consec t _ i h
    · exfalso
      have he := hfil t
      rw [if_neg ht] at he
      rw [he] at h
      simp at h

theorem price_series_construction_witness :
    ∃ h1 : 0 + 1 < ((download_stock_data [2, 1] ["X", "SPY"]
          (fun t d => if t = "X" ∧ d = 2 then none else some (d : ℚ))).filter
        (fun r => decide (r.ticker = "SPY"))).length,
      (((download_stock_data [2, 1] ["X", "SPY"]
            (fun t d => if t = "X" ∧ d = 2 then none else some (d : ℚ))).filter
          (fun r => decide (r.ticker = "SPY"))).get
        ⟨0, Nat.lt_of_succ_lt h1⟩).dailyROI = 1 ∧
        (((download_stock_data [2, 1] ["X", "SPY"]
              (fun t d => if t = "X" ∧ d = 2 then none else some (d : ℚ))).filter
            (fun r => decide (r.ticker = "SPY"))).get ⟨0 + 1, h1⟩).dailyROI =
          (((download_stock_data [2, 1] ["X", "SPY"]
                (fun t d => if t = "X" ∧ d = 2 then none else some (d : ℚ))).filter
              (fun r => decide (r.ticker = "SPY"))).get ⟨0 + 1, h1⟩).close /
            (((download_stock_data [2, 1] ["X", "SPY"]
                  (fun t d => if t = "X" ∧ d = 2 then none else some (d : ℚ))).filter
                (fun r => decide (r.ticker = "SPY"))).get
              ⟨0, Nat.lt_of_succ_lt h1⟩).close := by
  have h1 : 0 + 1 < ((download_stock_data [2, 1] ["X", "SPY"]
        (fun t d => if t = "X" ∧ d = 2 then none else some (d : ℚ))).filter
      (fun r => decide (r.ticker = "SPY"))).length := by
    simp +decide [download_stock_data, tickerSeries, tickerRows, roiRows,
      List.insertionSort, List.orderedInsert]
  exact ⟨h1,
    (price_series_construction [2, 1] ["X", "SPY"]
        (fun t d => if t = "X" ∧ d = 2 then none else some (d : ℚ))).2.2.1
      "SPY" (Nat.lt_of_succ_lt h1),
    (price_series_construction [2, 1] ["X", "SPY"]
        (fun t d => if t = "X" ∧ d = 2 then none else some (d : ℚ))).2.2.2
      "SPY" 0 h1⟩

/-! ## The final comparison table -/

/-- Lookup in a (date, value) table (join partner of a left merge whose right
side has unique dates). -/
def lookupVal (ys : List (ℕ × ℚ)) (d : ℕ) : Option ℚ :=
  (ys.find? (fun y => decide (y.1 = d))).map (·.2)

theorem filter_key_eq_nil {ys : List (ℕ × ℚ)} {d : ℕ}
    (h : d ∉ ys.map Prod.fst) :
    ys.filter (fun y => decide (y.1 = d)) = [] :=
  List.filter_eq_nil_iff.mpr (fun y hy => by
    rw [decide_eq_true_eq]
    intro he
    exact h (List.mem_map.mpr ⟨y, hy, he⟩))

theorem filter_key_of_nodup {ys : List (ℕ × ℚ)}
    (h : (ys.map Prod.fst).Nodup) (d : ℕ) :
    ys.filter (fun y => decide (y.1 = d)) =
      ((ys.find? (fun y => decide (y.1 = d))).map (fun y => [y])).getD [] := by
  induction ys with
  | nil => rfl
  | cons y ys ih =>
    simp only [List.map_cons, List.nodup_cons] at h
    by_cases hy : y.1 = d
    · rw [List.filter_cons_of_pos (by rw [decide_eq_true_eq]; exact hy),
        List.find?_cons_of_pos _ (by rw [decide_eq_true_eq]; exact hy)]
      have h2 : d ∉ ys.map Prod.fst := hy ▸ h.1
      rw [filter_key_eq_nil h2]
      rfl
    · rw [List.filter_cons_of_neg (by simp [hy]),
        List.find?_cons_of_neg _ (by simp [hy])]
      exact ih h.2

theorem mergeLeft_eq_map {α : Type} (key : α → ℕ) {ys : List (ℕ × ℚ)}
    (h : (ys.map Prod.fst).Nodup) :
    ∀ xs : List α,
      mergeLeft xs key ys = xs.map (fun x => (x, lookupVal ys (key x)))
  | [] => rfl
  | x :: xs => by
    rw [mergeLeft, List.flatMap_cons, List.map_cons]
    have htail : xs.flatMap (fun x =>
        if (ys.filter (fun y => decide (y.1 = key x))).isEmpty then [(x, none)]
        else (ys.filter (fun y => decide (y.1 = key x))).map
          (fun y => (x, some y.2))) =
        xs.map (fun x => (x, lookupVal ys (key x))) :=
      mergeLeft_eq_map key h xs
    rw [htail]
    have hf := filter_key_of_nodup h (key x)
    cases hfind : ys.find? (fun y => decide (y.1 = key x)) with
    | none =>
      rw [hfind] at hf
      simp only [Option.map_none', Option.getD_none] at hf
      rw [hf, lookupVal, hfind]
      rfl
    | some y0 =>
      rw [hfind] at hf
      simp only [Option.map_some', Option.getD_some] at hf
      rw [hf, lookupVal, hfind]
      rfl

theorem groupDateSum_keys (f : PortRow → ℚ) (rows : List PortRow) :
    (groupDateSum f rows).map Prod.fst =
      List.insertionSort (· ≤ ·) (rows.map (·.date)).dedup := by
  rw [groupDateSum, List.map_map]
  exact List.map_id _

theorem groupDateSum_keys_nodup (f : PortRow → ℚ) (rows : List PortRow) :
    ((groupDateSum f rows).map Prod.fst).Nodup := by
  rw [groupDateSum_keys]
  exact (List.perm_insertionSort _ _).nodup_iff.mpr (List.nodup_dedup _)

theorem spyDailyAux_length :
    ∀ (l : List (ℕ × ℚ)) (prev : ℚ), (spyDailyAux prev l).length = l.length
  | [], _ => rfl
  | (_, c) :: l, _ => by
    simp only [spyDailyAux, List.length_cons, spyDailyAux_length l c]

theorem spyDaily_length (spy : List (ℕ × ℚ)) :
    (spyDaily spy).length = spy.length := by
  cases spy with
  | nil => rfl
  | cons p l =>
    obtain ⟨d, c⟩ := p
    simp only [spyDaily, List.length_cons, spyDailyAux_length l c]

theorem cumprodAux_length :
    ∀ (l : List ℚ) (a : ℚ), (cumprodAux a l).length = l.length
  | [], _ => rfl
  | x :: l, a => by
    simp only [cumprodAux, List.length_cons, cumprodAux_length l (a * x)]

theorem spyTable_map_fst (spy : List (ℕ × ℚ)) :
    (spyTable spy).map Prod.fst = spy.map Prod.fst := by
  rw [spyTable]
  exact List.map_fst_zip _ _
    (by rw [cumprod, cumprodAux_length, spyDaily_length, List.length_map])

/-- The list fed to `finalRows` by `create_portfolio_roi`: each benchmark
date paired with the (possibly missing) politician and copy-trade aggregated
daily returns. -/
def finalInput (trades : List ValuedTrade) (sd : List PriceRow)
    (spy : List (ℕ × ℚ)) : List ((ℕ × ℚ) × Option ℚ × Option ℚ) :=
  (spyTable spy).map (fun x =>
    (x, lookupVal (polDailySeries trades sd (spy.map Prod.fst)) x.1,
      lookupVal (cpyDailySeries trades sd (spy.map Prod.fst)) x.1))

theorem polDailySeries_keys_nodup (trades : List ValuedTrade)
    (sd : List PriceRow) (cal : List ℕ) :
    ((polDailySeries trades sd cal).map Prod.fst).Nodup :=
  groupDateSum_keys_nodup _ _

theorem cpyDailySeries_keys_nodup (trades : List ValuedTrade)
    (sd : List PriceRow) (cal : List ℕ) :
    ((cpyDailySeries trades sd cal).map Prod.fst).Nodup :=
  groupDateSum_keys_nodup _ _

theorem create_portfolio_roi_eq (trades : List ValuedTrade)
    (sd : List PriceRow) (spy : List (ℕ × ℚ)) :
    create_portfolio_roi trades sd spy =
      finalRows 1 1 (finalInput trades sd spy) := by
  rw [create_portfolio_roi]
  rw [mergeLeft_eq_map _ (polDailySeries_keys_nodup trades sd _),
    mergeLeft_eq_map _ (cpyDailySeries_keys_nodup trades sd _), List.map_map,
    List.map_map]
  rfl

theorem finalRows_length :
    ∀ (l : List ((ℕ × ℚ) × Option ℚ × Option ℚ)) (a b : ℚ),
      (finalRows a b l).length = l.length
  | [], _, _ => rfl
  | ((d, s), p, c) :: l, a, b => by
    simp only [finalRows, List.length_cons, finalRows_length l]

theorem finalRows_map_date :
    ∀ (l : List ((ℕ × ℚ) × Option ℚ × Option ℚ)) (a b : ℚ),
      (finalRows a b l).map (fun r => r.date) = l.map (fun z => z.1.1)
  | [], _, _ => rfl
  | ((d, s), p, c) :: l, a, b => by
    simp only [finalRows, List.map_cons, finalRows_map_date l]

theorem finalRows_get_date :
    ∀ (l : List ((ℕ × ℚ) × Option ℚ × Option ℚ)) (a b : ℚ) (i : ℕ)
      (h : i < (finalRows a b l).length) (h2 : i < l.length),
      ((finalRows a b l).get ⟨i, h⟩).date = (l.get ⟨i, h2⟩).1.1
  | [], _, _, i, _, h2 => absurd h2 (Nat.not_lt_zero i)
  | ((d, s), p, c) :: l, a, b, 0, _, _ => rfl
  | ((d, s), p, c) :: l, a, b, i + 1, h, h2 =>
    finalRows_get_date l (a * p.getD 1) (b * c.getD 1) i
      (Nat.lt_of_succ_lt_succ h) (Nat.lt_of_succ_lt_succ h2)

theorem finalRows_get_roi :
    ∀ (l : List ((ℕ × ℚ) × Option ℚ × Option ℚ)) (a b : ℚ) (i : ℕ)
      (h : i < (finalRows a b l).length) (h2 : i < l.length),
      ((finalRows a b l).get ⟨i, h⟩).roi = ((l.get ⟨i, h2⟩).2.1).getD 1
  | [], _, _, i, _, h2 => absurd h2 (Nat.not_lt_zero i)
  | ((d, s), p, c) :: l, a, b, 0, _, _ => rfl
  | ((d, s), p, c) :: l, a, b, i + 1, h, h2 =>
    finalRows_get_roi l (a * p.getD 1) (b * c.getD 1) i
      (Nat.lt_of_succ_lt_succ h) (Nat.lt_of_succ_lt_succ h2)

theorem finalRows_get_copyROI :
    ∀ (l : List ((ℕ × ℚ) × Option ℚ × Option ℚ)) (a b : ℚ) (i : ℕ)
      (h : i < (finalRows a b l).length) (h2 : i < l.length),
      ((finalRows a b l).get ⟨i, h⟩).copyROI = ((l.get ⟨i, h2⟩).2.2).getD 1
  | [], _, _, i, _, h2 => absurd h2 (Nat.not_lt_zero i)
  | ((d, s), p, c) :: l, a, b, 0, _, _ => rfl
  | ((d, s), p, c) :: l, a, b, i + 1, h, h2 =>
    finalRows_get_copyROI l (a * p.getD 1) (b * c.getD 1) i
      (Nat.lt_of_succ_lt_succ h) (Nat.lt_of_succ_lt_succ h2)

theorem finalRows_get_zero_cum :
    ∀ (l : List ((ℕ × ℚ) × Option ℚ × Option ℚ)) (a b : ℚ)
      (h : 0 < (finalRows a b l).length),
      ((finalRows a b l).get ⟨0, h⟩).cumulativeROI =
          a * ((finalRows a b l).get ⟨0, h⟩).roi ∧
        ((finalRows a b l).get ⟨0, h⟩).copyCumulativeROI =
          b * ((finalRows a b l).get ⟨0, h⟩).copyROI
  | [], _, _, h => absurd h (Nat.not_lt_zero 0)
  | ((d, s), p, c) :: l, a, b, _ => ⟨rfl, rfl⟩

theorem finalRows_cum_succ :
    ∀ (l : List ((ℕ × ℚ) × Option ℚ × Option ℚ)) (a b : ℚ) (i : ℕ)
      (h : i + 1 < (finalRows a b l).length),
      ((finalRows a b l).get ⟨i + 1, h⟩).cumulativeROI =
          ((finalRows a b l).get ⟨i, Nat.lt_of_succ_lt h⟩).cumulativeROI *
            ((finalRows a b l).get ⟨i + 1, h⟩).roi ∧
        ((finalRows a b l).get ⟨i + 1, h⟩).copyCumulativeROI =
          ((finalRows a b l).get ⟨i, Nat.lt_of_succ_lt h⟩).copyCumulativeROI *
            ((finalRows a b l).get ⟨i + 1, h⟩).copyROI
  | [], _, _, i, h => absurd h (Nat.not_lt_zero (i + 1))
  | ((d, s), p, c) :: l, a, b, 0, h =>
    finalRows_get_zero_cum l (a * p.getD 1) (b * c.getD 1)
      (Nat.lt_of_succ_lt_succ h)
  | ((d, s), p, c) :: l, a, b, i + 1, h =>
    finalRows_cum_succ l (a * p.getD 1) (b * c.getD 1) i
      (Nat.lt_of_succ_lt_succ h)

/-- C7 — Calendar completeness: the final comparison table has exactly the
benchmark calendar as its date column — one row per benchmark trading day in
order (so no day is missing), and when the benchmark calendar has no
duplicate days neither does the final table, even though a portfolio ledger
may contribute several ticker rows per date (they are summed per date before
merging). -/
theorem final_table_calendar (trades : List ValuedTrade) (sd : List PriceRow)
    (spy : List (ℕ × ℚ)) :
    ((create_portfolio_roi trades sd spy).map (fun r => r.date) =
        spy.map Prod.fst) ∧
      ((spy.map Prod.fst).Nodup →
        ((create_portfolio_roi trades sd spy).map (fun r => r.date)).Nodup) := by
  have h1 : (create_portfolio_roi trades sd spy).map (fun r => r.date) =
      spy.map Prod.fst := by
    rw [create_portfolio_roi_eq, finalRows_map_date, finalInput, List.map_map]
    exact spyTable_map_fst spy
  exact ⟨h1, fun hn => h1 ▸ hn⟩

theorem final_table_calendar_witness :
    ((create_portfolio_roi [] [] [(1, 10), (2, 20)]).map (fun r => r.date) =
        [(1, (10 : ℚ)), (2, 20)].map Prod.fst) ∧
      ((create_portfolio_roi [] [] [(1, 10), (2, 20)]).map
          (fun r => r.date)).Nodup :=
  ⟨(final_table_calendar [] [] [(1, 10), (2, 20)]).1,
    (final_table_calendar [] [] [(1, 10), (2, 20)]).2 (by decide)⟩

/-- C6 — Chaining round-trip with 1.0 fill: in the final comparison table,
a date absent from a portfolio's aggregated daily-return series carries
daily return 1, and each stored cumulative column satisfies
`cumulative[0] = daily[0]` and `cumulative[t] = cumulative[t-1] * daily[t]`,
so re-chaining the daily column reproduces the stored cumulative column. -/
theorem final_table_chain (trades : List ValuedTrade) (sd : List PriceRow)
    (spy : List (ℕ × ℚ)) :
    (∀ i (h : i < (create_portfolio_roi trades sd spy).length),
        (((create_portfolio_roi trades sd spy).get ⟨i, h⟩).date ∉
            (polDailySeries trades sd (spy.map Prod.fst)).map Prod.fst →
          ((create_portfolio_roi trades sd spy).get ⟨i, h⟩).roi = 1) ∧
        (((create_portfolio_roi trades sd spy).get ⟨i, h⟩).date ∉
            (cpyDailySeries trades sd (spy.map Prod.fst)).map Prod.fst →
          ((create_portfolio_roi trades sd spy).get ⟨i, h⟩).copyROI = 1)) ∧
      (∀ h0 : 0 < (create_portfolio_roi trades sd spy).length,
        ((create_portfolio_roi trades sd spy).get ⟨0, h0⟩).cumulativeROI =
            ((create_portfolio_roi trades sd spy).get ⟨0, h0⟩).roi ∧
          ((create_portfolio_roi trades sd spy).get ⟨0, h0⟩).copyCumulativeROI =
            ((create_portfolio_roi trades sd spy).get ⟨0, h0⟩).copyROI) ∧
      ∀ i (h : i + 1 < (create_portfolio_roi trades sd spy).length),
        (((create_portfolio_roi trades sd spy).get ⟨i + 1, h⟩).cumulativeROI =
            ((create_portfolio_roi trades sd spy).get
                ⟨i, Nat.lt_of_succ_lt h⟩).cumulativeROI *
              ((create_portfolio_roi trades sd spy).get ⟨i + 1, h⟩).roi) ∧
          ((create_portfolio_roi trades sd spy).get
              ⟨i + 1, h⟩).copyCumulativeROI =
            ((create_portfolio_roi trades sd spy).get
                ⟨i, Nat.lt_of_succ_lt h⟩).copyCumulativeROI *
              ((create_portfolio_roi trades sd spy).get ⟨i + 1, h⟩).copyROI := by
  have key := create_portfolio_roi_eq trades sd spy
  revert key
  generalize create_portfolio_roi trades sd spy = F
  intro key
  subst key
  refine ⟨?_, ?_, ?_⟩
  · intro i h
    have h2 : i < (finalInput trades sd spy).length := by
      rw [← finalRows_length (finalInput trades sd spy) 1 1]
      exact h
    have h3 : i < (spyTable spy).length := by
      have := h2
      rw [finalInput, List.length_map] at this
      exact this
    have hget : (finalInput trades sd spy).get ⟨i, h2⟩ =
        ((spyTable spy).get ⟨i, h3⟩,
          lookupVal (polDailySeries trades sd (spy.map Prod.fst))
            ((spyTable spy).get ⟨i, h3⟩).1,
          lookupVal (cpyDailySeries trades sd (spy.map Prod.fst))
            ((spyTable spy).get ⟨i, h3⟩).1) := by
      simp only [finalInput, List.get_eq_getElem, List.getElem_map]
    constructor
    · intro habs
      rw [finalRows_get_date _ 1 1 i h h2, hget] at habs
      rw [finalRows_get_roi _ 1 1 i h h2, hget]
      have hnone : lookupVal (polDailySeries trades sd (spy.map Prod.fst))
          ((spyTable spy).get ⟨i, h3⟩).1 = none := by
        rw [lookupVal, List.find?_eq_none.mpr, Option.map_none']
        intro y hy
        rw [decide_eq_true_eq]
        intro he
        exact habs (List.mem_map.mpr ⟨y, hy, he⟩)
      rw [hnone]
      rfl
    · intro habs
      rw [finalRows_get_date _ 1 1 i h h2, hget] at habs
      rw [finalRows_get_copyROI _ 1 1 i h h2, hget]
      have hnone : lookupVal (cpyDailySeries trades sd (spy.map Prod.fst))
          ((spyTable spy).get ⟨i, h3⟩).1 = none := by
        rw [lookupVal, List.find?_eq_none.mpr, Option.map_none']
        intro y hy
        rw [decide_eq_true_eq]
        intro he
        exact habs (List.mem_map.mpr ⟨y, hy, he⟩)
      rw [hnone]
      rfl
  · intro h0
    have hz := finalRows_get_zero_cum (finalInput trades sd spy) 1 1 h0
    rw [one_mul, one_mul] at hz
    exact hz
  · intro i h
    exact finalRows_cum_succ (finalInput trades sd spy) 1 1 i h

theorem final_table_chain_witness :
    ∃ h : 0 + 1 < (create_portfolio_roi [] [] [(1, 10), (2, 20)]).length,
      ((create_portfolio_roi [] [] [(1, 10), (2, 20)]).get
          ⟨0, Nat.lt_of_succ_lt h⟩).roi = 1 ∧
        ((create_portfolio_roi [] [] [(1, 10), (2, 20)]).get
            ⟨0 + 1, h⟩).cumulativeROI =
          ((create_portfolio_roi [] [] [(1, 10), (2, 20)]).get
              ⟨0, Nat.lt_of_succ_lt h⟩).cumulativeROI *
            ((create_portfolio_roi [] [] [(1, 10), (2, 20)]).get
              ⟨0 + 1, h⟩).roi := by
  have h : 0 + 1 < (create_portfolio_roi [] [] [(1, 10), (2, 20)]).length := by
    simp +decide [create_portfolio_roi, mergeLeft, spyTable, cumprod,
      cumprodAux, spyDaily, spyDailyAux, polDailySeries, cpyDailySeries,
      groupDateSum, calculate_portfolio_roi, innerMergePrices, holdings,
      holdingsAux, applyDay, dayTickers, applyTicker, daySum, lookupQty,
      setQty, eraseQty, keyDate, dateTotal, mergedValue, finalRows,
      List.insertionSort, List.orderedInsert]
  refine ⟨h, ?_, ((final_table_chain [] [] [(1, 10), (2, 20)]).2.2 0 h).1⟩
  exact ((final_table_chain [] [] [(1, 10), (2, 20)]).1 0
      (Nat.lt_of_succ_lt h)).1
    (by simp +decide [polDailySeries, groupDateSum, calculate_portfolio_roi,
      innerMergePrices, holdings, holdingsAux, applyDay, dayTickers,
      applyTicker, daySum, lookupQty, setQty, eraseQty, keyDate, dateTotal,
      mergedValue, List.insertionSort, List.orderedInsert])

/-! ## Degenerate-value handling -/

theorem holdingsAux_date_mem (g : DateKey) (trades : List ValuedTrade) :
    ∀ (cal : List ℕ) (s : HState) (r : LedgerRow),
      r ∈ holdingsAux g trades s cal → r.date ∈ cal
  | [], _, r, hr => by simp [holdingsAux] at hr
  | d :: ds, s, r, hr => by
    rw [holdingsAux] at hr
    rcases List.mem_append.mp hr with h1 | h2
    · obtain ⟨p, hp, hpe⟩ := List.mem_map.mp h1
      rw [← hpe]
      exact List.mem_cons_self d ds
    · exact List.mem_cons_of_mem _
        (holdingsAux_date_mem g trades ds _ r h2)

theorem mem_groupDateSum (f : PortRow → ℚ) (rows : List PortRow) (d : ℕ)
    (hd : d ∈ rows.map (fun r => r.date)) :
    (d, ((rows.filter (fun r => decide (r.date = d))).map f).sum) ∈
      groupDateSum f rows := by
  rw [groupDateSum]
  refine List.mem_map.mpr ⟨d, ?_, rfl⟩
  rw [(List.perm_insertionSort _ _).mem_iff, List.mem_dedup]
  exact hd

theorem lookupVal_eq_of_mem {ys : List (ℕ × ℚ)}
    (h : (ys.map Prod.fst).Nodup) {d : ℕ} {v : ℚ} (hm : (d, v) ∈ ys) :
    lookupVal ys d = some v := by
  induction ys with
  | nil => simp at hm
  | cons y ys ih =>
    simp only [List.map_cons, List.nodup_cons] at h
    rcases List.mem_cons.mp hm with h1 | h2
    · rw [lookupVal, List.find?_cons_of_pos _ (by rw [← h1]; simp)]
      rw [← h1]
      rfl
    · by_cases hy : y.1 = d
      · exfalso
        apply h.1
        rw [hy]
        exact List.mem_map.mpr ⟨(d, v), h2, rfl⟩
      · rw [lookupVal, List.find?_cons_of_neg _ (by simp [hy])]
        exact ih h.2 h2

theorem create_portfolio_roi_map_date (trades : List ValuedTrade)
    (sd : List PriceRow) (spy : List (ℕ × ℚ)) :
    (create_portfolio_roi trades sd spy).map (fun r => r.date) =
      spy.map Prod.fst := by
  rw [create_portfolio_roi_eq, finalRows_map_date, finalInput, List.map_map]
  exact spyTable_map_fst spy

theorem create_portfolio_roi_length (trades : List ValuedTrade)
    (sd : List PriceRow) (spy : List (ℕ × ℚ)) :
    (create_portfolio_roi trades sd spy).length = spy.length := by
  have h := create_portfolio_roi_map_date trades sd spy
  have h2 := congrArg List.length h
  rw [List.length_map, List.length_map] at h2
  exact h2

theorem create_portfolio_roi_get_date (trades : List ValuedTrade)
    (sd : List PriceRow) (spy : List (ℕ × ℚ)) (i : ℕ)
    (h : i < (create_portfolio_roi trades sd spy).length)
    (h2 : i < (spy.map Prod.fst).length) :
    ((create_portfolio_roi trades sd spy).get ⟨i, h⟩).date =
      (spy.map Prod.fst).get ⟨i, h2⟩ := by
  have h4 : i < ((create_portfolio_roi trades sd spy).map
      (fun r => r.date)).length := by
    rw [List.length_map]
    exact h
  have hg := List.getElem_of_eq (create_portfolio_roi_map_date trades sd spy) h4
  rw [List.getElem_map] at hg
  rw [List.get_eq_getElem, List.get_eq_getElem]
  exact hg

theorem spyTable_get_fst (spy : List (ℕ × ℚ)) (i : ℕ)
    (h3 : i < (spyTable spy).length) (h2 : i < (spy.map Prod.fst).length) :
    ((spyTable spy).get ⟨i, h3⟩).1 = (spy.map Prod.fst).get ⟨i, h2⟩ := by
  have h4 : i < ((spyTable spy).map Prod.fst).length := by
    rw [List.length_map]
    exact h3
  have hg := List.getElem_of_eq (spyTable_map_fst spy) h4
  rw [List.getElem_map] at hg
  rw [List.get_eq_getElem, List.get_eq_getElem]
  exact hg

theorem create_portfolio_roi_get_roi (trades : List ValuedTrade)
    (sd : List PriceRow) (spy : List (ℕ × ℚ)) (i : ℕ)
    (h : i < (create_portfolio_roi trades sd spy).length)
    (h3 : i < (spyTable spy).length) :
    ((create_portfolio_roi trades sd spy).get ⟨i, h⟩).roi =
      (lookupVal (polDailySeries trades sd (spy.map Prod.fst))
        ((spyTable spy).get ⟨i, h3⟩).1).getD 1 := by
  have key := create_portfolio_roi_eq trades sd spy
  revert h
  rw [key]
  intro h
  have h2 : i < (finalInput trades sd spy).length := by
    rw [← finalRows_length (finalInput trades sd spy) 1 1]
    exact h
  rw [finalRows_get_roi _ 1 1 i h h2]
  have hget : (finalInput trades sd spy).get ⟨i, h2⟩ =
      ((spyTable spy).get ⟨i, h3⟩,
        lookupVal (polDailySeries trades sd (spy.map Prod.fst))
          ((spyTable spy).get ⟨i, h3⟩).1,
        lookupVal (cpyDailySeries trades sd (spy.map Prod.fst))
          ((spyTable spy).get ⟨i, h3⟩).1) := by
    simp only [finalInput, List.get_eq_getElem, List.getElem_map]
  rw [hget]

/-- C5 (counterexample) — The claim that a date with non-positive total
portfolio value is excluded from the weighted-return computation is false:
with a held ticker whose close price is 0 on day 2 (total value 0), the
division is still performed, day 2 appears in the aggregated daily-return
series with value 0, and the final table carries daily return 0 for day 2
(zeroing the cumulative curve) instead of omitting the date. -/
theorem degenerate_value_excluded_false :
    dateTotal (innerMergePrices
        (holdings [⟨"X", 10, 1, 1, some 10⟩] DateKey.execution [1, 2])
        [⟨1, "X", 1, 1⟩, ⟨2, "X", 0, 0⟩]) 2 = 0 ∧
      ((2, 0) ∈ polDailySeries [⟨"X", 10, 1, 1, some 10⟩]
        [⟨1, "X", 1, 1⟩, ⟨2, "X", 0, 0⟩] [1, 2]) ∧
      (create_portfolio_roi [⟨"X", 10, 1, 1, some 10⟩]
          [⟨1, "X", 1, 1⟩, ⟨2, "X", 0, 0⟩] [(1, 10), (2, 10)]).map
        (fun r => (r.date, r.roi)) = [(1, 1), (2, 0)] := by
  refine ⟨?_, ?_, ?_⟩ <;>
    simp +decide [create_portfolio_roi, mergeLeft, spyTable, cumprod,
      cumprodAux, spyDaily, spyDailyAux, polDailySeries, cpyDailySeries,
      groupDateSum, calculate_portfolio_roi, innerMergePrices, holdings,
      holdingsAux, applyDay, dayTickers, applyTicker, daySum, lookupQty,
      setQty, eraseQty, keyDate, dateTotal, mergedValue, finalRows,
      List.insertionSort, List.orderedInsert]

/-- C5 (amended) — Degenerate-value handling: a date of the valuation table
whose total portfolio value is zero is NOT excluded from the weighted-return
computation.  The division is still performed and the date's aggregated
portfolio daily return comes out as 0: in pandas the `0/0` per-ticker
contributions are NaN and the NaN-skipping date sum yields 0.0 (the
nonnegative-close hypothesis makes every per-ticker value 0 there, so the
rational convention `v / 0 = 0` reproduces exactly that sum); the final
table then carries 0 as that date's daily return — not the 1.0 of genuinely
absent dates — so the cumulative series is zeroed from that date onward
rather than the date being skipped. -/
theorem degenerate_value_zero_return (trades : List ValuedTrade)
    (sd : List PriceRow) (spy : List (ℕ × ℚ)) (d : ℕ)
    (hclose : ∀ pr ∈ sd, 0 ≤ pr.close)
    (hd : d ∈ (calculate_portfolio_roi trades sd DateKey.execution
      (spy.map Prod.fst)).map (fun r => r.date))
    (hzero : dateTotal (innerMergePrices
      (holdings trades DateKey.execution (spy.map Prod.fst)) sd) d = 0) :
    ((d, 0) ∈ polDailySeries trades sd (spy.map Prod.fst)) ∧
      ∃ i, ∃ h : i < (create_portfolio_roi trades sd spy).length,
        ((create_portfolio_roi trades sd spy).get ⟨i, h⟩).date = d ∧
          ((create_portfolio_roi trades sd spy).get ⟨i, h⟩).roi = 0 := by
  have hallzero : ∀ r ∈ calculate_portfolio_roi trades sd DateKey.execution
      (spy.map Prod.fst), r.date = d → r.roi = 0 := by
    intro r hr hrd
    rw [calculate_portfolio_roi_eq_map] at hr
    obtain ⟨x, hx, hxe⟩ := List.mem_map.mp hr
    have hxd : x.1.date = d := by
      rw [← hrd, ← hxe]
    have : r.roi = mergedValue x /
        dateTotal (innerMergePrices
          (holdings trades DateKey.execution (spy.map Prod.fst)) sd)
          x.1.date * x.2.dailyROI := by
      rw [← hxe]
    rw [this, hxd, hzero, div_zero, zero_mul]
  have hsum : (((calculate_portfolio_roi trades sd DateKey.execution
      (spy.map Prod.fst)).filter (fun r => decide (r.date = d))).map
        (fun r => r.roi)).sum = 0 := by
    apply List.sum_eq_zero
    intro x hx
    obtain ⟨r, hr, hre⟩ := List.mem_map.mp hx
    obtain ⟨hr1, hr2⟩ := List.mem_filter.mp hr
    rw [← hre]
    exact hallzero r hr1 (decide_eq_true_eq.mp hr2)
  have hmem : (d, 0) ∈ polDailySeries trades sd (spy.map Prod.fst) := by
    rw [polDailySeries]
    have := mem_groupDateSum (fun r => r.roi)
      (calculate_portfolio_roi trades sd DateKey.execution (spy.map Prod.fst))
      d hd
    rw [hsum] at this
    exact this
  refine ⟨hmem, ?_⟩
  have hdcal : d ∈ spy.map Prod.fst := by
    obtain ⟨r, hr, hre⟩ := List.mem_map.mp hd
    rw [calculate_portfolio_roi_eq_map] at hr
    obtain ⟨x, hx, hxe⟩ := List.mem_map.mp hr
    have hld := holdingsAux_date_mem DateKey.execution trades
      (spy.map Prod.fst) [] x.1 (mem_innerMergePrices hx).1
    have : r.date = x.1.date := by rw [← hxe]
    rw [← hre, this]
    exact hld
  obtain ⟨n, hn⟩ := List.mem_iff_get.mp hdcal
  have h : n.1 < (create_portfolio_roi trades sd spy).length := by
    rw [create_portfolio_roi_length]
    exact lt_of_lt_of_eq n.2 (List.length_map _ _)
  have hlen3 : (spyTable spy).length = spy.length := by
    rw [spyTable, List.length_zip, cumprod, cumprodAux_length,
      spyDaily_length, List.length_map, Nat.min_self]
  have h3 : n.1 < (spyTable spy).length := by
    rw [hlen3]
    exact lt_of_lt_of_eq n.2 (List.length_map _ _)
  refine ⟨n.1, h, ?_, ?_⟩
  · rw [create_portfolio_roi_get_date trades sd spy n.1 h n.2]
    exact hn
  · rw [create_portfolio_roi_get_roi trades sd spy n.1 h h3]
    have hfst : ((spyTable spy).get ⟨n.1, h3⟩).1 = d := by
      rw [spyTable_get_fst spy n.1 h3 n.2]
      exact hn
    rw [hfst, lookupVal_eq_of_mem (polDailySeries_keys_nodup trades sd _) hmem]
    rfl

theorem degenerate_value_zero_return_witness :
    ((2, 0) ∈ polDailySeries [⟨"X", 10, 1, 1, some 10⟩]
        [⟨1, "X", 1, 1⟩, ⟨2, "X", 0, 0⟩]
        ([((1 : ℕ), (10 : ℚ)), (2, 10)].map Prod.fst)) ∧
      ∃ i, ∃ h : i < (create_portfolio_roi [⟨"X", 10, 1, 1, some 10⟩]
          [⟨1, "X", 1, 1⟩, ⟨2, "X", 0, 0⟩] [(1, 10), (2, 10)]).length,
        ((create_portfolio_roi [⟨"X", 10, 1, 1, some 10⟩]
            [⟨1, "X", 1, 1⟩, ⟨2, "X", 0, 0⟩] [(1, 10), (2, 10)]).get
          ⟨i, h⟩).date = 2 ∧
          ((create_portfolio_roi [⟨"X", 10, 1, 1, some 10⟩]
              [⟨1, "X", 1, 1⟩, ⟨2, "X", 0, 0⟩] [(1, 10), (2, 10)]).get
            ⟨i, h⟩).roi = 0 := by
  apply degenerate_value_zero_return [⟨"X", 10, 1, 1, some 10⟩]
    [⟨1, "X", 1, 1⟩, ⟨2, "X", 0, 0⟩] [(1, 10), (2, 10)] 2
  · intro pr hpr
    rcases List.mem_cons.mp hpr with h1 | h2
    · rw [h1]
      norm_num
    · rcases List.mem_cons.mp h2 with h3 | h4
      · rw [h3]
      · simp at h4
  · simp +decide [calculate_portfolio_roi, innerMergePrices, holdings,
      holdingsAux, applyDay, dayTickers, applyTicker, daySum, lookupQty,
      setQty, eraseQty, keyDate, dateTotal, mergedValue, List.insertionSort,
      List.orderedInsert]
  · simp +decide [dateTotal, mergedValue, innerMergePrices, holdings,
      holdingsAux, applyDay, dayTickers, applyTicker, daySum, lookupQty,
      setQty, eraseQty, keyDate, List.insertionSort, List.orderedInsert]

/-! ## Missing-price transactions contribute nothing -/

/-- The valuation applied to a single trade by `add_stock_amount_column`. -/
def valueTrade (sd : List PriceRow) (tr : Trade) : ValuedTrade :=
  ⟨tr.ticker, tr.amount, tr.transactionDate, tr.reportDate,
    (lookupClose sd tr.transactionDate tr.ticker).map (fun c => tr.amount / c)⟩

theorem add_stock_amount_column_eq (trades : List Trade) (sd : List PriceRow) :
    add_stock_amount_column trades sd = trades.map (valueTrade sd) := rfl

theorem lookupQty_none_iff (s : HState) (t : String) :
    lookupQty s t = none ↔ ∀ p ∈ s, p.1 ≠ t := by
  rw [lookupQty, Option.map_eq_none', List.find?_eq_none]
  constructor
  · intro h p hp
    have h2 := h p hp
    simp only [decide_eq_true_eq] at h2
    exact h2
  · intro h p hp
    simp only [decide_eq_true_eq]
    exact h p hp

theorem eraseQty_of_lookup_none {s : HState} {t : String}
    (h : lookupQty s t = none) : eraseQty s t = s := by
  rw [eraseQty]
  apply List.filter_eq_self.mpr
  intro p hp
  rw [decide_eq_true_eq]
  exact (lookupQty_none_iff s t).mp h p hp

theorem any_of_lookup_some {s : HState} {t : String} {v : ℚ}
    (h : lookupQty s t = some v) :
    s.any (fun p => decide (p.1 = t)) = true := by
  rw [lookupQty] at h
  obtain ⟨p, hp⟩ := Option.map_eq_some'.mp h
  cases hfind : s.find? (fun p => decide (p.1 = t)) with
  | none => rw [hfind] at hp; exact absurd hp.1 (by simp)
  | some p0 =>
    rw [hfind] at hp
    have hmem := List.mem_of_find?_eq_some hfind
    have hpred := List.find?_some hfind
    exact List.any_eq_true.mpr ⟨p0, hmem, hpred⟩

theorem mem_of_lookup_some {s : HState} {t : String} {v : ℚ}
    (h : lookupQty s t = some v) : (t, v) ∈ s := by
  rw [lookupQty] at h
  obtain ⟨p0, hp0, hpe⟩ := Option.map_eq_some'.mp h
  have hmem := List.mem_of_find?_eq_some hp0
  have hpred := List.find?_some hp0
  rw [decide_eq_true_eq] at hpred
  have : p0 = (t, v) := by
    obtain ⟨p1, p2⟩ := p0
    simp only at hpred hpe
    rw [hpred, hpe]
  rw [← this]
  exact hmem

theorem setQty_self {s : HState} (hk : (s.map Prod.fst).Nodup) {t : String}
    {v : ℚ} (hv : lookupQty s t = some v) : setQty s t v = s := by
  rw [setQty, if_pos (any_of_lookup_some hv)]
  induction s with
  | nil => rfl
  | cons p s ih =>
    simp only [List.map_cons, List.nodup_cons] at hk
    by_cases hp : p.1 = t
    · have hv2 : p.2 = v := by
        rw [lookupQty, List.find?_cons_of_pos _ (by simp [hp])] at hv
        simpa using hv
      rw [List.map_cons, if_pos hp]
      have htail : s.map (fun p => if p.1 = t then (t, v) else p) =
          s.map id := by
        apply List.map_congr_left
        intro q hq
        have hqt : ¬q.1 = t := by
          intro hqt
          apply hk.1
          rw [hp, ← hqt]
          exact List.mem_map.mpr ⟨q, hq, rfl⟩
        rw [if_neg hqt]
        rfl
      rw [htail, List.map_id]
      obtain ⟨p1, p2⟩ := p
      simp only at hp hv2
      rw [hp, hv2]
    · rw [lookupQty, List.find?_cons_of_neg _ (by simp [hp])] at hv
      rw [List.map_cons, if_neg hp, ih hk.2 hv]

theorem applyTicker_id {dt : List ValuedTrade} {T : String}
    (hzero : daySum dt T = 0) {s : HState} (hs : GoodState s) :
    applyTicker dt s T = s := by
  rw [applyTicker, hzero, add_zero]
  cases hlk : lookupQty s T with
  | none =>
    simp only [Option.getD_none]
    rw [if_pos le_rfl]
    exact eraseQty_of_lookup_none hlk
  | some v =>
    simp only [Option.getD_some]
    have hvpos : 0 < v := hs.2 (T, v) (mem_of_lookup_some hlk)
    rw [if_neg (not_le.mpr hvpos)]
    exact setQty_self hs.1 hlk

theorem daySum_middle_none (fa fb : List ValuedTrade) (vtr : ValuedTrade)
    (hna : vtr.stockAmount = none) (t : String) :
    daySum (fa ++ vtr :: fb) t = daySum (fa ++ fb) t := by
  rw [daySum, daySum, List.filter_append, List.filter_append]
  by_cases ht : vtr.ticker = t
  · rw [List.filter_cons_of_pos (by simp [ht])]
    rw [List.map_append, List.map_append, List.map_cons, List.sum_append,
      List.sum_append, List.sum_cons, hna, Option.getD_none, zero_add]
  · rw [List.filter_cons_of_neg (by simp [ht])]

theorem dayTickers_sorted (dt : List ValuedTrade) :
    List.Sorted (· ≤ ·) (dayTickers dt) :=
  List.sorted_insertionSort _ _

theorem dayTickers_nodup (dt : List ValuedTrade) : (dayTickers dt).Nodup :=
  (List.perm_insertionSort _ _).nodup_iff.mpr (List.nodup_dedup _)

theorem mem_dayTickers {dt : List ValuedTrade} {t : String} :
    t ∈ dayTickers dt ↔ t ∈ dt.map (fun tr => tr.ticker) := by
  rw [dayTickers, (List.perm_insertionSort _ _).mem_iff, List.mem_dedup]

theorem dayTickers_middle_mem (fa fb : List ValuedTrade) (vtr : ValuedTrade)
    (hmem : vtr.ticker ∈ (fa ++ fb).map (fun tr => tr.ticker)) :
    dayTickers (fa ++ vtr :: fb) = dayTickers (fa ++ fb) := by
  apply List.eq_of_perm_of_sorted _ (dayTickers_sorted _) (dayTickers_sorted _)
  rw [List.perm_ext_iff_of_nodup (dayTickers_nodup _) (dayTickers_nodup _)]
  intro a
  rw [mem_dayTickers, mem_dayTickers, List.map_append, List.map_append,
    List.map_cons, List.mem_append, List.mem_append, List.mem_cons]
  constructor
  · rintro (h | h | h)
    · exact Or.inl h
    · rw [List.map_append, List.mem_append] at hmem
      rw [h]
      exact hmem
    · exact Or.inr h
  · rintro (h | h)
    · exact Or.inl h
    · exact Or.inr (Or.inr h)

theorem dayTickers_middle_not_mem (fa fb : List ValuedTrade)
    (vtr : ValuedTrade)
    (hmem : vtr.ticker ∉ (fa ++ fb).map (fun tr => tr.ticker)) :
    dayTickers (fa ++ fb) =
      (dayTickers (fa ++ vtr :: fb)).erase vtr.ticker := by
  apply List.eq_of_perm_of_sorted _ (dayTickers_sorted _)
    ((dayTickers_sorted _).sublist (List.erase_sublist _ _))
  rw [List.perm_ext_iff_of_nodup (dayTickers_nodup _)
    ((dayTickers_nodup _).erase _)]
  intro a
  rw [(dayTickers_nodup (fa ++ vtr :: fb)).mem_erase_iff]
  rw [mem_dayTickers, mem_dayTickers, List.map_append, List.map_append,
    List.map_cons, List.mem_append, List.mem_append, List.mem_cons]
  constructor
  · intro h
    have hne : a ≠ vtr.ticker := by
      intro he
      apply hmem
      rw [List.map_append, List.mem_append, ← he]
      exact h
    refine ⟨hne, ?_⟩
    rcases h with h | h
    · exact Or.inl h
    · exact Or.inr (Or.inr h)
  · rintro ⟨hne, h | h | h⟩
    · exact Or.inl h
    · exact absurd h hne
    · exact Or.inr h

theorem foldl_applyTicker_middle_id (dt : List ValuedTrade) (T : String)
    (hid : ∀ s : HState, GoodState s → applyTicker dt s T = s) :
    ∀ (X Y : List String) (s : HState), GoodState s →
      (X ++ T :: Y).foldl (applyTicker dt) s =
        (X ++ Y).foldl (applyTicker dt) s
  | [], Y, s, hs => by
    rw [List.nil_append, List.nil_append, List.foldl_cons, hid s hs]
  | x :: X, Y, s, hs => by
    rw [List.cons_append, List.cons_append, List.foldl_cons, List.foldl_cons]
    exact foldl_applyTicker_middle_id dt T hid X Y _
      (goodState_applyTicker dt hs x)

theorem applyDay_middle_none (g : DateKey) (va vb : List ValuedTrade)
    (vtr : ValuedTrade) (hna : vtr.stockAmount = none) (d : ℕ)
    {s : HState} (hs : GoodState s) :
    applyDay g (va ++ vtr :: vb) s d = applyDay g (va ++ vb) s d := by
  rw [applyDay, applyDay, List.filter_append, List.filter_append]
  by_cases hd : keyDate g vtr = d
  · rw [List.filter_cons_of_pos (by simp [hd])]
    have hsum : ∀ t,
        daySum (va.filter (fun tr => decide (keyDate g tr = d)) ++ vtr ::
          vb.filter (fun tr => decide (keyDate g tr = d))) t =
        daySum (va.filter (fun tr => decide (keyDate g tr = d)) ++
          vb.filter (fun tr => decide (keyDate g tr = d))) t :=
      daySum_middle_none _ _ vtr hna
    have hfun : applyTicker (va.filter (fun tr => decide (keyDate g tr = d)) ++
        vtr :: vb.filter (fun tr => decide (keyDate g tr = d))) =
        applyTicker (va.filter (fun tr => decide (keyDate g tr = d)) ++
          vb.filter (fun tr => decide (keyDate g tr = d))) := by
      funext s0 t
      rw [applyTicker, applyTicker, hsum t]
    rw [hfun]
    by_cases hmem : vtr.ticker ∈
        (va.filter (fun tr => decide (keyDate g tr = d)) ++
          vb.filter (fun tr => decide (keyDate g tr = d))).map
          (fun tr => tr.ticker)
    · rw [dayTickers_middle_mem _ _ vtr hmem]
    · have hT : vtr.ticker ∈ dayTickers
          (va.filter (fun tr => decide (keyDate g tr = d)) ++ vtr ::
            vb.filter (fun tr => decide (keyDate g tr = d))) := by
        rw [mem_dayTickers, List.map_append, List.map_cons]
        exact List.mem_append.mpr (Or.inr (List.mem_cons_self _ _))
      obtain ⟨X, Y, -, hdecomp, herase⟩ := List.exists_erase_eq hT
      rw [dayTickers_middle_not_mem _ _ vtr hmem, herase, hdecomp]
      have hzero : daySum
          (va.filter (fun tr => decide (keyDate g tr = d)) ++
            vb.filter (fun tr => decide (keyDate g tr = d))) vtr.ticker = 0 := by
        rw [daySum]
        have hnil : (va.filter (fun tr => decide (keyDate g tr = d)) ++
            vb.filter (fun tr => decide (keyDate g tr = d))).filter
            (fun tr => decide (tr.ticker = vtr.ticker)) = [] := by
          apply List.filter_eq_nil_iff.mpr
          intro tr htr
          simp only [decide_eq_true_eq]
          intro he
          exact hmem (List.mem_map.mpr ⟨tr, htr, he⟩)
        rw [hnil]
        rfl
      exact foldl_applyTicker_middle_id _ _
        (fun s0 hs0 => applyTicker_id hzero hs0) X Y s hs
  · rw [List.filter_cons_of_neg (by simp [hd])]

theorem holdingsAux_middle_none (g : DateKey) (va vb : List ValuedTrade)
    (vtr : ValuedTrade) (hna : vtr.stockAmount = none) :
    ∀ (cal : List ℕ) (s : HState), GoodState s →
      holdingsAux g (va ++ vtr :: vb) s cal =
        holdingsAux g (va ++ vb) s cal
  | [], _, _ => rfl
  | d :: ds, s, hs => by
    simp only [holdingsAux]
    rw [applyDay_middle_none g va vb vtr hna d hs]
    rw [holdingsAux_middle_none g va vb vtr hna ds _
      (goodState_applyDay g (va ++ vb) hs d)]

theorem holdings_middle_none (g : DateKey) (cal : List ℕ)
    (va vb : List ValuedTrade) (vtr : ValuedTrade)
    (hna : vtr.stockAmount = none) :
    holdings (va ++ vtr :: vb) g cal = holdings (va ++ vb) g cal :=
  holdingsAux_middle_none g va vb vtr hna cal [] goodState_nil

/-- C3 — Missing-price policy: a transaction whose (execution date, ticker)
has no matching price observation survives the left join with a NaN stock
amount (the run does not abort), and pandas' NaN-skipping day sums make it
contribute zero shares to every subsequent holding: the reconstructed
ledgers (for either date key, over any calendar) and the final returns table
are exactly those obtained with that transaction removed. -/
theorem missing_price_contributes_nothing (a b : List Trade) (tr : Trade)
    (sd : List PriceRow)
    (hnp : lookupClose sd tr.transactionDate tr.ticker = none) :
    (∀ g cal, holdings (add_stock_amount_column (a ++ tr :: b) sd) g cal =
        holdings (add_stock_amount_column (a ++ b) sd) g cal) ∧
      ∀ spy, create_portfolio_roi (add_stock_amount_column (a ++ tr :: b) sd)
          sd spy =
        create_portfolio_roi (add_stock_amount_column (a ++ b) sd) sd spy := by
  have hna : (valueTrade sd tr).stockAmount = none := by
    rw [valueTrade]
    simp only
    rw [hnp]
    rfl
  have hval1 : add_stock_amount_column (a ++ tr :: b) sd =
      a.map (valueTrade sd) ++ valueTrade sd tr :: b.map (valueTrade sd) := by
    rw [add_stock_amount_column_eq, List.map_append, List.map_cons]
  have hval2 : add_stock_amount_column (a ++ b) sd =
      a.map (valueTrade sd) ++ b.map (valueTrade sd) := by
    rw [add_stock_amount_column_eq, List.map_append]
  have hhold : ∀ g cal,
      holdings (add_stock_amount_column (a ++ tr :: b) sd) g cal =
        holdings (add_stock_amount_column (a ++ b) sd) g cal := by
    intro g cal
    rw [hval1, hval2]
    exact holdings_middle_none g cal _ _ _ hna
  refine ⟨hhold, ?_⟩
  intro spy
  have hcalc : ∀ g cal,
      calculate_portfolio_roi (add_stock_amount_column (a ++ tr :: b) sd)
          sd g cal =
        calculate_portfolio_roi (add_stock_amount_column (a ++ b) sd)
          sd g cal := by
    intro g cal
    rw [calculate_portfolio_roi_eq_map, calculate_portfolio_roi_eq_map,
      hhold g cal]
  simp only [create_portfolio_roi, polDailySeries, cpyDailySeries]
  rw [hcalc DateKey.execution (spy.map (fun x => x.1)),
    hcalc DateKey.disclosure (spy.map (fun x => x.1))]

theorem missing_price_contributes_nothing_witness :
    (holdings (add_stock_amount_column [⟨"X", 10, 1, 1⟩] [])
          DateKey.execution [1] =
        holdings (add_stock_amount_column [] []) DateKey.execution [1]) ∧
      create_portfolio_roi (add_stock_amount_column [⟨"X", 10, 1, 1⟩] []) []
          [(1, 10)] =
        create_portfolio_roi (add_stock_amount_column [] []) [] [(1, 10)] := by
  have h := missing_price_contributes_nothing [] [] ⟨"X", 10, 1, 1⟩ [] rfl
  exact ⟨h.1 DateKey.execution [1], h.2 [(1, 10)]⟩

/-! ## Conservation after full liquidation -/

/-- The net share quantity ticker `t` gains on calendar day `d`. -/
def daySumOn (g : DateKey) (trades : List ValuedTrade) (d : ℕ) (t : String) :
    ℚ :=
  daySum (trades.filter (fun tr => decide (keyDate g tr = d))) t

/-- C2 (counterexample) — The conservation claim is false as stated: buy 10
shares (day 1), oversell 20 (day 2, the eviction resets the position), buy
10 again (day 3).  Under the execution key the transactions sum to exactly
zero net shares by calendar date 4 and no transaction occurs after day 3,
yet the ledger still contains ticker "T" on day 4 with quantity 10, because
the day-2 eviction discarded the 10-share deficit. -/
theorem conservation_after_liquidation_false :
    ((([⟨"T", 10, 1, 1, some 10⟩, ⟨"T", -20, 2, 2, some (-20)⟩,
          ⟨"T", 10, 3, 3, some 10⟩] : List ValuedTrade).filter
        (fun tr => decide (tr.ticker = "T" ∧
          keyDate DateKey.execution tr ≤ 4))).map
      (fun tr => tr.stockAmount.getD 0)).sum = 0 ∧
      (∀ tr ∈ ([⟨"T", 10, 1, 1, some 10⟩, ⟨"T", -20, 2, 2, some (-20)⟩,
          ⟨"T", 10, 3, 3, some 10⟩] : List ValuedTrade),
        ¬(4 < keyDate DateKey.execution tr)) ∧
      (⟨4, "T", 10⟩ : LedgerRow) ∈
        holdings [⟨"T", 10, 1, 1, some 10⟩, ⟨"T", -20, 2, 2, some (-20)⟩,
          ⟨"T", 10, 3, 3, some 10⟩] DateKey.execution [1, 2, 3, 4] := by
  refine ⟨?_, ?_, ?_⟩ <;>
    · simp +decide [holdings, holdingsAux, applyDay, dayTickers, applyTicker,
        daySum, lookupQty, setQty, eraseQty, keyDate, List.insertionSort,
        List.orderedInsert]
      try norm_num

theorem lookupQty_cons_ne {p : String × ℚ} {T : String} (h : p.1 ≠ T)
    (s : HState) : lookupQty (p :: s) T = lookupQty s T := by
  rw [lookupQty, List.find?_cons_of_neg _ (by simp [h]), lookupQty]

theorem lookupQty_cons_self {p : String × ℚ} {T : String} (h : p.1 = T)
    (s : HState) : lookupQty (p :: s) T = some p.2 := by
  rw [lookupQty, List.find?_cons_of_pos _ (by simp [h])]
  rfl

theorem lookupQty_map_update_ne (s : HState) {t T : String} (q : ℚ)
    (hne : t ≠ T) :
    lookupQty (s.map (fun p => if p.1 = t then (t, q) else p)) T =
      lookupQty s T := by
  induction s with
  | nil => rfl
  | cons p s ih =>
    rw [List.map_cons]
    by_cases hp : p.1 = t
    · rw [if_pos hp, lookupQty_cons_ne (by exact hne) _,
        lookupQty_cons_ne (by rw [hp]; exact hne) _, ih]
    · rw [if_neg hp]
      by_cases hpT : p.1 = T
      · rw [lookupQty_cons_self hpT, lookupQty_cons_self hpT]
      · rw [lookupQty_cons_ne hpT, lookupQty_cons_ne hpT, ih]

theorem lookupQty_append_single_ne (s : HState) {t T : String} (q : ℚ)
    (hne : t ≠ T) : lookupQty (s ++ [(t, q)]) T = lookupQty s T := by
  induction s with
  | nil =>
    rw [List.nil_append, lookupQty_cons_ne (by exact hne)]
  | cons p s ih =>
    by_cases hp : p.1 = T
    · rw [List.cons_append, lookupQty_cons_self hp, lookupQty_cons_self hp]
    · rw [List.cons_append, lookupQty_cons_ne hp, lookupQty_cons_ne hp, ih]

theorem lookupQty_setQty_ne (s : HState) {t T : String} (q : ℚ)
    (hne : t ≠ T) : lookupQty (setQty s t q) T = lookupQty s T := by
  rw [setQty]
  by_cases hmem : s.any (fun p => decide (p.1 = t)) = true
  · rw [if_pos hmem]
    exact lookupQty_map_update_ne s q hne
  · rw [if_neg hmem]
    exact lookupQty_append_single_ne s q hne

theorem lookupQty_eraseQty_ne (s : HState) {t T : String} (hne : t ≠ T) :
    lookupQty (eraseQty s t) T = lookupQty s T := by
  induction s with
  | nil => rfl
  | cons p s ih =>
    rw [eraseQty]
    by_cases hp : p.1 = t
    · rw [List.filter_cons_of_neg (by simp [hp])]
      rw [← eraseQty, ih, lookupQty_cons_ne (by rw [hp]; exact hne)]
    · rw [List.filter_cons_of_pos (by simp [hp])]
      by_cases hpT : p.1 = T
      · rw [lookupQty_cons_self hpT, lookupQty_cons_self hpT]
      · rw [lookupQty_cons_ne hpT, ← eraseQty, ih, lookupQty_cons_ne hpT]

theorem lookupQty_eraseQty_self (s : HState) (t : String) :
    lookupQty (eraseQty s t) t = none := by
  rw [lookupQty, Option.map_eq_none', List.find?_eq_none]
  intro p hp
  have := (List.mem_filter.mp hp).2
  simp only [decide_eq_true_eq] at this ⊢
  exact this

theorem lookupQty_setQty_self (s : HState) (T : String) (v : ℚ) :
    lookupQty (setQty s T v) T = some v := by
  rw [setQty]
  by_cases hmem : s.any (fun p => decide (p.1 = T)) = true
  · rw [if_pos hmem]
    induction s with
    | nil => simp at hmem
    | cons p s ih =>
      rw [List.map_cons]
      by_cases hp : p.1 = T
      · rw [if_pos hp, lookupQty_cons_self rfl]
      · rw [if_neg hp, lookupQty_cons_ne hp]
        apply ih
        rw [List.any_cons] at hmem
        rcases Bool.or_eq_true_iff.mp hmem with h | h
        · exact absurd (decide_eq_true_eq.mp h) hp
        · exact h
  · rw [if_neg hmem]
    induction s with
    | nil => rw [List.nil_append, lookupQty_cons_self rfl]
    | cons p s ih =>
      have hp : ¬p.1 = T := by
        intro hp
        exact hmem (List.any_eq_true.mpr
          ⟨p, List.mem_cons_self _ _, by simp [hp]⟩)
      rw [List.cons_append, lookupQty_cons_ne hp]
      apply ih
      intro hc
      apply hmem
      rw [List.any_cons, hc, Bool.or_true]

theorem lookupQty_applyTicker_ne (dt : List ValuedTrade) (s : HState)
    {t T : String} (hne : t ≠ T) :
    lookupQty (applyTicker dt s t) T = lookupQty s T := by
  rw [applyTicker]
  by_cases hq : (lookupQty s t).getD 0 + daySum dt t ≤ 0
  · rw [if_pos hq]
    exact lookupQty_eraseQty_ne s hne
  · rw [if_neg hq]
    exact lookupQty_setQty_ne s _ hne

theorem lookupQty_applyTicker_self (dt : List ValuedTrade) (s : HState)
    (T : String) :
    lookupQty (applyTicker dt s T) T =
      if (lookupQty s T).getD 0 + daySum dt T ≤ 0 then none
      else some ((lookupQty s T).getD 0 + daySum dt T) := by
  rw [applyTicker]
  by_cases hq : (lookupQty s T).getD 0 + daySum dt T ≤ 0
  · rw [if_pos hq, if_pos hq]
    exact lookupQty_eraseQty_self s T
  · rw [if_neg hq, if_neg hq]
    exact lookupQty_setQty_self s T _

theorem lookupQty_foldl_not_mem (dt : List ValuedTrade) :
    ∀ (l : List String) (s : HState) (T : String), T ∉ l →
      lookupQty (l.foldl (applyTicker dt) s) T = lookupQty s T
  | [], _, _, _ => rfl
  | x :: l, s, T, h => by
    rw [List.foldl_cons,
      lookupQty_foldl_not_mem dt l _ T
        (fun hc => h (List.mem_cons_of_mem _ hc)),
      lookupQty_applyTicker_ne dt s
        (fun he => h (by rw [← he]; exact List.mem_cons_self x l))]

/-- The scalar effect of one calendar day on one ticker's dict entry. -/
def stepQty (q : Option ℚ) (x : ℚ) : Option ℚ :=
  if q.getD 0 + x ≤ 0 then none else some (q.getD 0 + x)

theorem lookupQty_applyDay (g : DateKey) (trades : List ValuedTrade)
    {s : HState} (hs : GoodState s) (d : ℕ) (T : String) :
    lookupQty (applyDay g trades s d) T =
      stepQty (lookupQty s T) (daySumOn g trades d T) := by
  rw [applyDay, daySumOn]
  by_cases hT : T ∈ dayTickers
      (trades.filter (fun tr => decide (keyDate g tr = d)))
  · obtain ⟨X, Y, hXmem, hdecomp, -⟩ := List.exists_erase_eq hT
    have hnodup := dayTickers_nodup
      (trades.filter (fun tr => decide (keyDate g tr = d)))
    rw [hdecomp] at hnodup
    have hTY : T ∉ Y :=
      (List.nodup_cons.mp (List.Nodup.of_append_right hnodup)).1
    rw [hdecomp, List.foldl_append, List.foldl_cons]
    rw [lookupQty_foldl_not_mem _ Y _ T hTY]
    rw [lookupQty_applyTicker_self]
    rw [lookupQty_foldl_not_mem _ X s T hXmem]
    rw [stepQty]
  · have hfold := lookupQty_foldl_not_mem
      (trades.filter (fun tr => decide (keyDate g tr = d)))
      (dayTickers (trades.filter (fun tr => decide (keyDate g tr = d))))
      s T hT
    rw [hfold]
    have hzero : daySum
        (trades.filter (fun tr => decide (keyDate g tr = d))) T = 0 := by
      rw [daySum]
      have hnil : (trades.filter
          (fun tr => decide (keyDate g tr = d))).filter
          (fun tr => decide (tr.ticker = T)) = [] := by
        apply List.filter_eq_nil_iff.mpr
        intro tr htr
        simp only [decide_eq_true_eq]
        intro he
        exact hT (mem_dayTickers.mpr (List.mem_map.mpr ⟨tr, htr, he⟩))
      rw [hnil]
      rfl
    rw [hzero, stepQty]
    cases hlk : lookupQty s T with
    | none =>
      rw [if_pos (by simp)]
    | some v =>
      have hvpos : 0 < v := hs.2 (T, v) (mem_of_lookup_some hlk)
      rw [if_neg (by simp only [Option.getD_some, add_zero]; exact not_le.mpr hvpos)]
      simp only [Option.getD_some, add_zero]

/-- The scalar trace of one ticker's dict entry along the calendar. -/
def qtyFold (g : DateKey) (trades : List ValuedTrade) (T : String) :
    Option ℚ → List ℕ → Option ℚ
  | q, [] => q
  | q, d :: ds => qtyFold g trades T (stepQty q (daySumOn g trades d T)) ds

theorem qtyFold_append (g : DateKey) (trades : List ValuedTrade) (T : String) :
    ∀ (l1 l2 : List ℕ) (q : Option ℚ),
      qtyFold g trades T q (l1 ++ l2) =
        qtyFold g trades T (qtyFold g trades T q l1) l2
  | [], _, _ => rfl
  | d :: l1, l2, q => by
    rw [List.cons_append, qtyFold, qtyFold, qtyFold_append g trades T l1 l2]

theorem qtyFold_none_nonpos (g : DateKey) (trades : List ValuedTrade)
    (T : String) :
    ∀ days : List ℕ, (∀ e ∈ days, daySumOn g trades e T ≤ 0) →
      qtyFold g trades T none days = none
  | [], _ => rfl
  | d :: days, h => by
    rw [qtyFold]
    have hd : stepQty none (daySumOn g trades d T) = none := by
      rw [stepQty, if_pos]
      simp only [Option.getD_none, zero_add]
      exact h d (List.mem_cons_self d days)
    rw [hd]
    exact qtyFold_none_nonpos g trades T days
      (fun e he => h e (List.mem_cons_of_mem d he))

theorem goodState_stateAfter (g : DateKey) (trades : List ValuedTrade) :
    ∀ (cal : List ℕ) (s : HState), GoodState s →
      GoodState (cal.foldl (applyDay g trades) s)
  | [], _, hs => hs
  | d :: ds, s, hs =>
    goodState_stateAfter g trades ds _ (goodState_applyDay g trades hs d)

theorem lookupQty_stateAfter (g : DateKey) (trades : List ValuedTrade)
    (T : String) :
    ∀ (cal : List ℕ) (s : HState), GoodState s →
      lookupQty (cal.foldl (applyDay g trades) s) T =
        qtyFold g trades T (lookupQty s T) cal
  | [], _, _ => rfl
  | d :: ds, s, hs => by
    rw [List.foldl_cons, qtyFold,
      lookupQty_stateAfter g trades T ds _ (goodState_applyDay g trades hs d),
      lookupQty_applyDay g trades hs d T]

theorem mem_state_iff_lookup {s : HState} (hk : (s.map Prod.fst).Nodup)
    (T : String) (q : ℚ) : (T, q) ∈ s ↔ lookupQty s T = some q := by
  constructor
  · intro hm
    induction s with
    | nil => simp at hm
    | cons p s ih =>
      simp only [List.map_cons, List.nodup_cons] at hk
      rcases List.mem_cons.mp hm with h1 | h2
      · rw [← h1, lookupQty_cons_self rfl]
      · by_cases hp : p.1 = T
        · exfalso
          apply hk.1
          rw [hp]
          exact List.mem_map.mpr ⟨(T, q), h2, rfl⟩
        · rw [lookupQty_cons_ne hp]
          exact ih hk.2 h2
  · exact mem_of_lookup_some

theorem holdingsAux_append (g : DateKey) (trades : List ValuedTrade) :
    ∀ (c1 c2 : List ℕ) (s : HState),
      holdingsAux g trades s (c1 ++ c2) =
        holdingsAux g trades s c1 ++
          holdingsAux g trades (c1.foldl (applyDay g trades) s) c2
  | [], _, _ => rfl
  | d :: c1, c2, s => by
    simp only [holdingsAux, List.cons_append, List.foldl_cons,
      List.append_eq]
    rw [holdingsAux_append g trades c1 c2 (applyDay g trades s d),
      List.append_assoc]

theorem mem_holdingsAux_day (g : DateKey) (trades : List ValuedTrade)
    {c1 : List ℕ} {d : ℕ} {c2 : List ℕ} (hd1 : d ∉ c1) (hd2 : d ∉ c2)
    (s : HState) (T : String) (q : ℚ) :
    ((⟨d, T, q⟩ : LedgerRow) ∈ holdingsAux g trades s (c1 ++ d :: c2)) ↔
      (T, q) ∈ applyDay g trades (c1.foldl (applyDay g trades) s) d := by
  rw [holdingsAux_append]
  simp only [holdingsAux]
  rw [List.mem_append, List.mem_append]
  constructor
  · rintro (h | h | h)
    · exact absurd (holdingsAux_date_mem g trades c1 s _ h) hd1
    · obtain ⟨p, hp, hpe⟩ := List.mem_map.mp h
      have : p = (T, q) := by
        obtain ⟨p1, p2⟩ := p
        have h1 : p1 = T := congrArg LedgerRow.ticker hpe
        have h2 : p2 = q := congrArg LedgerRow.stockAmount hpe
        rw [h1, h2]
      rw [← this]
      exact hp
    · exact absurd (holdingsAux_date_mem g trades c2 _ _ h) hd2
  · intro h
    exact Or.inr (Or.inl (List.mem_map.mpr ⟨(T, q), h, rfl⟩))

theorem filter_sum_split (p q : ValuedTrade → Bool)
    (hdisj : ∀ tr, ¬(p tr = true ∧ q tr = true)) (f : ValuedTrade → ℚ) :
    ∀ l : List ValuedTrade,
      ((l.filter (fun tr => p tr || q tr)).map f).sum =
        ((l.filter p).map f).sum + ((l.filter q).map f).sum
  | [] => by simp
  | tr :: l => by
    have ih := filter_sum_split p q hdisj f l
    by_cases hp : p tr = true
    · have hq : ¬q tr = true := fun hq => hdisj tr ⟨hp, hq⟩
      rw [List.filter_cons_of_pos (by rw [hp, Bool.true_or]),
        List.filter_cons_of_pos hp, List.filter_cons_of_neg hq,
        List.map_cons, List.map_cons, List.sum_cons, List.sum_cons, ih]
      ring
    · by_cases hq : q tr = true
      · rw [List.filter_cons_of_pos (by rw [hq, Bool.or_true]),
          List.filter_cons_of_neg hp, List.filter_cons_of_pos hq,
          List.map_cons, List.map_cons, List.sum_cons, List.sum_cons, ih]
        ring
      · rw [List.filter_cons_of_neg (by
            rw [Bool.or_eq_true]
            rintro (h | h)
            · exact hp h
            · exact hq h),
          List.filter_cons_of_neg hp, List.filter_cons_of_neg hq, ih]

theorem daySumOn_eq (g : DateKey) (trades : List ValuedTrade) (e : ℕ)
    (T : String) :
    daySumOn g trades e T =
      ((trades.filter (fun tr =>
        decide (tr.ticker = T) && decide (keyDate g tr = e))).map
        (fun tr => tr.stockAmount.getD 0)).sum := by
  rw [daySumOn, daySum, List.filter_filter]

/-- The total net shares ticker `T` gains over a list of calendar days. -/
def sumDays (g : DateKey) (trades : List ValuedTrade) (T : String)
    (days : List ℕ) : ℚ :=
  (days.map (fun e => daySumOn g trades e T)).sum

/-- The net shares of ticker `T` from all transactions keyed on or before
day `d` — "transactions summing to zero net shares by date `d`". -/
def prefixShares (g : DateKey) (trades : List ValuedTrade) (T : String)
    (d : ℕ) : ℚ :=
  ((trades.filter (fun tr =>
    decide (tr.ticker = T) && decide (keyDate g tr ≤ d))).map
    (fun tr => tr.stockAmount.getD 0)).sum

theorem sumDays_eq_filter (g : DateKey) (trades : List ValuedTrade)
    (T : String) :
    ∀ days : List ℕ, days.Nodup →
      sumDays g trades T days =
        ((trades.filter (fun tr =>
          decide (tr.ticker = T) && decide (keyDate g tr ∈ days))).map
          (fun tr => tr.stockAmount.getD 0)).sum
  | [], _ => by
    rw [sumDays]
    simp
  | d :: days, hnd => by
    rw [sumDays, List.map_cons, List.sum_cons, ← sumDays,
      sumDays_eq_filter g trades T days (List.Nodup.of_cons hnd),
      daySumOn_eq]
    rw [← filter_sum_split
      (fun tr => decide (tr.ticker = T) && decide (keyDate g tr = d))
      (fun tr => decide (tr.ticker = T) && decide (keyDate g tr ∈ days))
      (by
        intro tr ⟨h1, h2⟩
        rw [Bool.and_eq_true] at h1 h2
        have hd := decide_eq_true_eq.mp h1.2
        have hm := decide_eq_true_eq.mp h2.2
        exact (List.nodup_cons.mp hnd).1 (hd ▸ hm))
      (fun tr => tr.stockAmount.getD 0) trades]
    congr 1
    congr 1
    apply List.filter_congr
    intro tr _
    by_cases ht : decide (tr.ticker = T) = true
    · rw [ht, Bool.true_and, Bool.true_and, Bool.true_and]
      by_cases h1 : keyDate g tr = d
      · simp [h1, List.mem_cons]
      · by_cases h2 : keyDate g tr ∈ days <;> simp [h1, h2, List.mem_cons]
    · rw [Bool.not_eq_true] at ht
      rw [ht, Bool.false_and, Bool.false_and, Bool.false_and, Bool.false_or]

theorem mem_prefix_iff_le {pp p2 : List ℕ} {e : ℕ}
    (hsort : List.Sorted (· < ·) ((pp ++ [e]) ++ p2)) (x : ℕ)
    (hx : x ∈ (pp ++ [e]) ++ p2) : (x ∈ pp ++ [e]) ↔ x ≤ e := by
  rw [List.append_assoc] at hsort hx
  rw [List.Sorted, List.pairwise_append] at hsort
  obtain ⟨hpp, hrest, hcross⟩ := hsort
  have hrest2 : ∀ b ∈ p2, e < b := (List.pairwise_cons.mp hrest).1
  constructor
  · intro hxp
    rcases List.mem_append.mp hxp with h | h
    · exact le_of_lt (hcross x h e
        (List.mem_append.mpr (Or.inl (List.mem_singleton_self e))))
    · rw [List.mem_singleton] at h
      exact le_of_eq h
  · intro hxe
    rcases List.mem_append.mp hx with h | h
    · exact List.mem_append.mpr (Or.inl h)
    · rcases List.mem_append.mp h with h2 | h2
      · exact List.mem_append.mpr (Or.inr h2)
      · exact absurd hxe (not_le.mpr (hrest2 x h2))

theorem sumDays_eq_prefixShares (g : DateKey) (trades : List ValuedTrade)
    (T : String) {pp : List ℕ} {e : ℕ} {rest : List ℕ}
    (hsort : List.Sorted (· < ·) ((pp ++ [e]) ++ rest))
    (hkeys : ∀ tr ∈ trades, tr.ticker = T →
      keyDate g tr ∈ (pp ++ [e]) ++ rest) :
    sumDays g trades T (pp ++ [e]) = prefixShares g trades T e := by
  have hnodup : ((pp ++ [e]) ++ rest).Nodup :=
    List.Pairwise.imp (fun h => ne_of_lt h) hsort
  rw [sumDays_eq_filter g trades T _ (List.Nodup.of_append_left hnodup),
    prefixShares]
  congr 1
  congr 1
  apply List.filter_congr
  intro tr htr
  by_cases ht : decide (tr.ticker = T) = true
  · rw [ht, Bool.true_and, Bool.true_and]
    apply decide_eq_decide.mpr
    exact mem_prefix_iff_le hsort (keyDate g tr)
      (hkeys tr htr (decide_eq_true_eq.mp ht))
  · rw [Bool.not_eq_true] at ht
    rw [ht, Bool.false_and, Bool.false_and]

theorem qtyFold_eq_prefixSum (g : DateKey) (trades : List ValuedTrade)
    (T : String) :
    ∀ (days : List ℕ) (base : ℚ), 0 ≤ base →
      (∀ p1 p2 : List ℕ, days = p1 ++ p2 →
        0 ≤ base + sumDays g trades T p1) →
      qtyFold g trades T (if 0 < base then some base else none) days =
        if 0 < base + sumDays g trades T days then
          some (base + sumDays g trades T days)
        else none
  | [], base, hb, _ => by
    rw [sumDays]
    simp only [List.map_nil, List.sum_nil, add_zero]
    rfl
  | d :: days, base, hb, hpre => by
    rw [qtyFold]
    have h1 : 0 ≤ base + daySumOn g trades d T := by
      have h2 := hpre [d] days rfl
      rw [sumDays, List.map_cons, List.map_nil, List.sum_cons,
        List.sum_nil, add_zero] at h2
      exact h2
    have hstep : stepQty (if 0 < base then some base else none)
        (daySumOn g trades d T) =
        if 0 < base + daySumOn g trades d T then
          some (base + daySumOn g trades d T)
        else none := by
      rw [stepQty]
      have hg : (if 0 < base then some base else none).getD 0 = base := by
        by_cases h0 : 0 < base
        · rw [if_pos h0]
          rfl
        · rw [if_neg h0, le_antisymm (not_lt.mp h0) hb]
          rfl
      rw [hg]
      by_cases h2 : 0 < base + daySumOn g trades d T
      · rw [if_neg (not_le.mpr h2), if_pos h2]
      · rw [if_pos (not_lt.mp h2), if_neg h2]
    rw [hstep]
    have hpre2 : ∀ p1 p2 : List ℕ, days = p1 ++ p2 →
        0 ≤ base + daySumOn g trades d T + sumDays g trades T p1 := by
      intro p1 p2 hsplit
      have h3 := hpre (d :: p1) p2 (by rw [hsplit, List.cons_append])
      rw [sumDays, List.map_cons, List.sum_cons, ← sumDays] at h3
      rw [add_assoc]
      exact h3
    rw [qtyFold_eq_prefixSum g trades T days (base + daySumOn g trades d T)
      h1 hpre2]
    have hsum : sumDays g trades T (d :: days) =
        daySumOn g trades d T + sumDays g trades T days := by
      rw [sumDays, List.map_cons, List.sum_cons]
      rfl
    rw [hsum, ← add_assoc]

theorem lookupQty_nil (T : String) : lookupQty [] T = none := rfl

/-- C2 (amended) — Conservation after full liquidation: provided every
transaction of the ticker is keyed on a trading-calendar day and the running
net-share total never dips below zero on any calendar day up to `D` (i.e. no
intermediate oversell, which the eviction would silently reset), a ticker
whose transactions sum to exactly zero net shares by calendar date `D` is
absent from the ledger on every date ≥ `D` until a day with positive net
day-sum occurs, and on the first such re-buy day the ticker reappears with
exactly that day's net sum — accumulation restarts from zero. -/
theorem conservation_after_liquidation (g : DateKey)
    (trades : List ValuedTrade) (cal : List ℕ) (T : String) (D : ℕ)
    (hsort : List.Sorted (· < ·) cal)
    (hkeys : ∀ tr ∈ trades, tr.ticker = T → keyDate g tr ∈ cal)
    (hD : D ∈ cal)
    (hpre : ∀ e ∈ cal, e ≤ D → 0 ≤ prefixShares g trades T e)
    (hzero : prefixShares g trades T D = 0) :
    (∀ d ∈ cal, D ≤ d →
        (∀ e ∈ cal, D < e → e ≤ d → daySumOn g trades e T ≤ 0) →
        ∀ q : ℚ, (⟨d, T, q⟩ : LedgerRow) ∉ holdings trades g cal) ∧
      ∀ d ∈ cal, D < d →
        (∀ e ∈ cal, D < e → e < d → daySumOn g trades e T ≤ 0) →
        0 < daySumOn g trades d T →
        (⟨d, T, daySumOn g trades d T⟩ : LedgerRow) ∈
          holdings trades g cal := by
  obtain ⟨c1, c2, hcal⟩ := List.append_of_mem hD
  subst hcal
  have hsort2 := hsort
  rw [List.Sorted, List.pairwise_append] at hsort2
  obtain ⟨pwc1, pwDc2, hcross⟩ := hsort2
  have hDlt : ∀ b ∈ c2, D < b := (List.pairwise_cons.mp pwDc2).1
  have pwc2 : List.Pairwise (· < ·) c2 := (List.pairwise_cons.mp pwDc2).2
  have hc1lt : ∀ a ∈ c1, a < D := fun a ha =>
    hcross a ha D (List.mem_cons_self D c2)
  have hassoc : (c1 ++ [D]) ++ c2 = c1 ++ D :: c2 := by
    rw [List.append_assoc, List.singleton_append]
  have hsortA : List.Sorted (· < ·) ((c1 ++ [D]) ++ c2) := by
    rw [hassoc]
    exact hsort
  have hkeysA : ∀ tr ∈ trades, tr.ticker = T →
      keyDate g tr ∈ (c1 ++ [D]) ++ c2 := by
    intro tr htr ht
    rw [hassoc]
    exact hkeys tr htr ht
  have hbase : qtyFold g trades T none (c1 ++ [D]) = none := by
    have hprefix : ∀ p1 p2 : List ℕ, c1 ++ [D] = p1 ++ p2 →
        0 ≤ 0 + sumDays g trades T p1 := by
      intro p1 p2 hsplit
      rw [zero_add]
      rcases List.eq_nil_or_concat p1 with hnil | ⟨pp, e, hcc⟩
      · rw [hnil, sumDays]
        simp
      · subst hcc
        rw [List.concat_eq_append] at hsplit ⊢
        have hplist : (pp ++ [e]) ++ (p2 ++ c2) = (c1 ++ [D]) ++ c2 := by
          rw [← List.append_assoc, ← hsplit]
        have hsortP : List.Sorted (· < ·) ((pp ++ [e]) ++ (p2 ++ c2)) := by
          rw [hplist]
          exact hsortA
        have hkeysP : ∀ tr ∈ trades, tr.ticker = T →
            keyDate g tr ∈ (pp ++ [e]) ++ (p2 ++ c2) := by
          intro tr htr ht
          rw [hplist]
          exact hkeysA tr htr ht
        rw [sumDays_eq_prefixShares g trades T hsortP hkeysP]
        have hemem : e ∈ c1 ++ [D] := by
          rw [hsplit]
          exact List.mem_append.mpr (Or.inl (List.mem_append.mpr
            (Or.inr (List.mem_singleton_self e))))
        have hecal : e ∈ (c1 ++ [D]) ++ c2 :=
          List.mem_append.mpr (Or.inl hemem)
        have heD : e ≤ D := (mem_prefix_iff_le hsortA e hecal).mp hemem
        have hecal2 : e ∈ c1 ++ D :: c2 := by
          rw [← hassoc]
          exact hecal
        exact hpre e hecal2 heD
    have hq := qtyFold_eq_prefixSum g trades T (c1 ++ [D]) 0 le_rfl hprefix
    rw [if_neg (lt_irrefl 0)] at hq
    rw [hq, sumDays_eq_prefixShares g trades T hsortA hkeysA, hzero,
      add_zero, if_neg (lt_irrefl 0)]
  have hafter : ∀ days : List ℕ,
      (∀ e ∈ days, daySumOn g trades e T ≤ 0) →
      qtyFold g trades T none ((c1 ++ [D]) ++ days) = none := by
    intro days hnp
    rw [qtyFold_append, hbase, qtyFold_none_nonpos g trades T days hnp]
  constructor
  · intro d hd hDd hnonpos q hrow
    rw [holdings] at hrow
    rcases List.mem_append.mp hd with hd1 | hd2
    · exact absurd hDd (not_le.mpr (hc1lt d hd1))
    rcases List.mem_cons.mp hd2 with hdD | hdc2
    · subst hdD
      have hD1 : d ∉ c1 := fun hc => lt_irrefl d (hc1lt d hc)
      have hD2 : d ∉ c2 := fun hc => lt_irrefl d (hDlt d hc)
      have hmem := (mem_holdingsAux_day g trades hD1 hD2 [] T q).mp hrow
      have hgs := goodState_stateAfter g trades c1 [] goodState_nil
      have hlook := (mem_state_iff_lookup
        (goodState_applyDay g trades hgs d).1 T q).mp hmem
      rw [lookupQty_applyDay g trades hgs d T,
        lookupQty_stateAfter g trades T c1 [] goodState_nil,
        lookupQty_nil] at hlook
      have hcomb : stepQty (qtyFold g trades T none c1)
          (daySumOn g trades d T) =
          qtyFold g trades T none (c1 ++ [d]) := by
        rw [qtyFold_append, qtyFold, qtyFold]
      rw [hcomb, hbase] at hlook
      exact Option.noConfusion hlook
    · obtain ⟨c2a, c2b, hc2⟩ := List.append_of_mem hdc2
      subst hc2
      have hnodc2 : (c2a ++ d :: c2b).Nodup :=
        List.Pairwise.imp (fun h => ne_of_lt h) pwc2
      have hdc2a : d ∉ c2a := fun hc =>
        (List.nodup_append.mp hnodc2).2.2 hc (List.mem_cons_self d c2b)
      have hdc2b : d ∉ c2b :=
        (List.nodup_cons.mp (List.nodup_append.mp hnodc2).2.1).1
      have hcross2 : ∀ a ∈ c2a, ∀ b ∈ d :: c2b, a < b :=
        (List.pairwise_append.mp pwc2).2.2
      have hd1 : d ∉ c1 ++ D :: c2a := by
        intro hc
        rcases List.mem_append.mp hc with h | h
        · exact lt_asymm (hDlt d hdc2) (hc1lt d h)
        · rcases List.mem_cons.mp h with h2 | h2
          · exact absurd (hDlt d hdc2) (by rw [h2]; exact lt_irrefl D)
          · exact hdc2a h2
      have heq1 : c1 ++ D :: (c2a ++ d :: c2b) =
          (c1 ++ D :: c2a) ++ d :: c2b := by
        rw [List.append_assoc, List.cons_append]
      rw [heq1] at hrow
      have hmem := (mem_holdingsAux_day g trades hd1 hdc2b [] T q).mp hrow
      have hgs := goodState_stateAfter g trades (c1 ++ D :: c2a) []
        goodState_nil
      have hlook := (mem_state_iff_lookup
        (goodState_applyDay g trades hgs d).1 T q).mp hmem
      rw [lookupQty_applyDay g trades hgs d T,
        lookupQty_stateAfter g trades T (c1 ++ D :: c2a) [] goodState_nil,
        lookupQty_nil] at hlook
      have hcomb : stepQty (qtyFold g trades T none (c1 ++ D :: c2a))
          (daySumOn g trades d T) =
          qtyFold g trades T none ((c1 ++ D :: c2a) ++ [d]) := by
        conv_rhs => rw [qtyFold_append]
        rw [qtyFold, qtyFold]
      rw [hcomb] at hlook
      have heq2 : (c1 ++ D :: c2a) ++ [d] =
          (c1 ++ [D]) ++ (c2a ++ [d]) := by
        rw [List.append_assoc, List.append_assoc, List.cons_append,
          List.singleton_append]
      rw [heq2] at hlook
      rw [hafter (c2a ++ [d]) ?_] at hlook
      · exact Option.noConfusion hlook
      · intro e he
        rcases List.mem_append.mp he with h | h
        · have heD : D < e := hDlt e (List.mem_append.mpr (Or.inl h))
          have hed : e < d := hcross2 e h d (List.mem_cons_self d c2b)
          have hecal : e ∈ c1 ++ D :: (c2a ++ d :: c2b) :=
            List.mem_append.mpr (Or.inr (List.mem_cons_of_mem D
              (List.mem_append.mpr (Or.inl h))))
          exact hnonpos e hecal heD (le_of_lt hed)
        · rw [List.mem_singleton] at h
          rw [h]
          exact hnonpos d hd (hDlt d hdc2) le_rfl
  · intro d hd hDd hnonpos hpos
    rcases List.mem_append.mp hd with hd1 | hd2
    · exact absurd hDd (not_lt.mpr (le_of_lt (hc1lt d hd1)))
    rcases List.mem_cons.mp hd2 with hdD | hdc2
    · exact absurd hDd (by rw [hdD]; exact lt_irrefl D)
    obtain ⟨c2a, c2b, hc2⟩ := List.append_of_mem hdc2
    subst hc2
    have hnodc2 : (c2a ++ d :: c2b).Nodup :=
      List.Pairwise.imp (fun h => ne_of_lt h) pwc2
    have hdc2a : d ∉ c2a := fun hc =>
      (List.nodup_append.mp hnodc2).2.2 hc (List.mem_cons_self d c2b)
    have hdc2b : d ∉ c2b :=
      (List.nodup_cons.mp (List.nodup_append.mp hnodc2).2.1).1
    have hcross2 : ∀ a ∈ c2a, ∀ b ∈ d :: c2b, a < b :=
      (List.pairwise_append.mp pwc2).2.2
    have hd1 : d ∉ c1 ++ D :: c2a := by
      intro hc
      rcases List.mem_append.mp hc with h | h
      · exact lt_asymm (hDlt d hdc2) (hc1lt d h)
      · rcases List.mem_cons.mp h with h2 | h2
        · exact absurd (hDlt d hdc2) (by rw [h2]; exact lt_irrefl D)
        · exact hdc2a h2
    have hstate : qtyFold g trades T none (c1 ++ D :: c2a) = none := by
      have heq3 : c1 ++ D :: c2a = (c1 ++ [D]) ++ c2a := by
        rw [List.append_assoc, List.singleton_append]
      rw [heq3]
      apply hafter
      intro e he
      have heD : D < e := hDlt e (List.mem_append.mpr (Or.inl he))
      have hed : e < d := hcross2 e he d (List.mem_cons_self d c2b)
      have hecal : e ∈ c1 ++ D :: (c2a ++ d :: c2b) :=
        List.mem_append.mpr (Or.inr (List.mem_cons_of_mem D
          (List.mem_append.mpr (Or.inl he))))
      exact hnonpos e hecal heD hed
    have hgs := goodState_stateAfter g trades (c1 ++ D :: c2a) []
      goodState_nil
    have hlook : lookupQty (applyDay g trades
        ((c1 ++ D :: c2a).foldl (applyDay g trades) []) d) T =
        some (daySumOn g trades d T) := by
      rw [lookupQty_applyDay g trades hgs d T,
        lookupQty_stateAfter g trades T (c1 ++ D :: c2a) [] goodState_nil,
        lookupQty_nil, hstate, stepQty,
        if_neg (by simp only [Option.getD_none, zero_add]; exact not_le.mpr hpos)]
      simp only [Option.getD_none, zero_add]
    have hmem := mem_of_lookup_some hlook
    rw [holdings]
    have heq1 : c1 ++ D :: (c2a ++ d :: c2b) =
        (c1 ++ D :: c2a) ++ d :: c2b := by
      rw [List.append_assoc, List.cons_append]
    rw [heq1]
    exact (mem_holdingsAux_day g trades hd1 hdc2b [] T _).mpr hmem

/-- A concrete run for the conservation theorem: buy 10 (day 1), sell all 10
(day 2), re-buy 5 (day 4), over the calendar 1..5. -/
def tradesW : List ValuedTrade :=
  [⟨"T", 10, 1, 1, some 10⟩, ⟨"T", -10, 2, 2, some (-10)⟩,
    ⟨"T", 5, 4, 4, some 5⟩]

theorem conservation_after_liquidation_witness :
    ((⟨3, "T", 5⟩ : LedgerRow) ∉
        holdings tradesW DateKey.execution [1, 2, 3, 4, 5]) ∧
      (⟨4, "T", 5⟩ : LedgerRow) ∈
        holdings tradesW DateKey.execution [1, 2, 3, 4, 5] := by
  have H := conservation_after_liquidation DateKey.execution tradesW
    [1, 2, 3, 4, 5] "T" 2
    (by decide)
    (by decide)
    (by decide)
    (by
      intro e he hle
      fin_cases he <;>
        · simp +decide [prefixShares, keyDate, tradesW]
          try norm_num)
    (by
      simp +decide [prefixShares, keyDate, tradesW]
      try norm_num)
  have hnp3 : ∀ e ∈ [1, 2, 3, 4, 5], 2 < e → e ≤ 3 →
      daySumOn DateKey.execution tradesW e "T" ≤ 0 := by
    intro e he h2e he3
    fin_cases he <;>
      first
        | omega
        | (simp +decide [daySumOn, daySum, keyDate, tradesW]; try norm_num)
  have hnp4 : ∀ e ∈ [1, 2, 3, 4, 5], 2 < e → e < 4 →
      daySumOn DateKey.execution tradesW e "T" ≤ 0 := by
    intro e he h2e he4
    fin_cases he <;>
      first
        | omega
        | (simp +decide [daySumOn, daySum, keyDate, tradesW]; try norm_num)
  have h5eq : daySumOn DateKey.execution tradesW 4 "T" = 5 := by
    simp +decide [daySumOn, daySum, keyDate, tradesW]
    try norm_num
  constructor
  · exact H.1 3 (by decide) (by norm_num) hnp3 5
  · have hres := H.2 4 (by decide) (by norm_num) hnp4
      (by rw [h5eq]; norm_num)
    rw [h5eq] at hres
    exact hres
